import Mathlib

/-!
# brother: backend node health check, fail-over and handshake

A shallow embedding of `proxyBack/node.go` and of the handshake part of
`proxyBack/conn_back.go`.

Pools (`*DB`) live in an arena: a pointer is an index into `World.heap`, `none`
is the nil pointer, and a pointer outside the arena behaves as nil.  A nil
dereference is a Go panic: procedures that can panic return `Option _ × World`,
`none` standing for the panic, the world being the one reached when it happened.

Everything the node code calls but which is declared outside the translated
files (the liveness constants, `Open`, `DB.Ping`, the clock, `InitBalancer`)
is collected in `Env`.  Calls to the outside are numbered by `World.tick`, so that
an `Env` fixes the outcome of every call of a run.  `DB.GetConn` is a parameter of
`GetMasterConn`.

The embedding is sequential: one goroutine runs one operation at a time, and the
locks of `Node` are not modelled.
-/

namespace Brother

/-! ## Go library functions used by the node -/

/-- Go `strings.Split(s, sep)` for a one-character separator, on the characters of `s`. -/
def splitChars (sep : Char) : List Char → List (List Char)
  | [] => [[]]
  | c :: cs =>
    if c = sep then [] :: splitChars sep cs
    else
      match splitChars sep cs with
      | [] => [[c]]
      | h :: t => (c :: h) :: t

/-- Go `strings.Split(s, sep)` for a one-character separator. -/
def Split (s : String) (sep : Char) : List String :=
  (splitChars sep s.data).map String.mk

/-- Go `strings.Trim(s, cutset)` for a one-character cutset. -/
def Trim (s : String) (cut : Char) : String :=
  String.mk (((s.data.dropWhile (fun c => c == cut)).reverse.dropWhile (fun c => c == cut)).reverse)

/-- Value of a decimal digit. -/
def digitVal (c : Char) : Option Nat :=
  if 48 ≤ c.toNat ∧ c.toNat ≤ 57 then some (c.toNat - 48) else none

/-- Decimal digits to a number, most significant first; `none` on a non-digit. -/
def parseDigits : List Char → Nat → Option Nat
  | [], acc => some acc
  | c :: cs, acc =>
    match digitVal c with
    | none => none
    | some d => parseDigits cs (acc * 10 + d)

/-- Go `strconv.Atoi` on a 64-bit platform: an optional sign, then one or more decimal
digits, the value within the range of `int`; `none` is the `*NumError`. -/
def Atoi (s : String) : Option Int :=
  let body : Bool × List Char :=
    match s.data with
    | '-' :: r => (true, r)
    | '+' :: r => (false, r)
    | r => (false, r)
  match body.2 with
  | [] => none
  | ds =>
    match parseDigits ds 0 with
    | none => none
    | some n =>
      let v : Int := if body.1 then -(n : Int) else (n : Int)
      if -(2 ^ 63 : Int) ≤ v ∧ v < (2 ^ 63 : Int) then some v else none

/-! ## Data model -/

/-- The fields of `DB` that `node.go` reads and writes: `addr`, `state` (int32) and the
time of the last successful ping (Unix seconds). -/
structure DB where
  addr : String
  state : Int
  lastPing : Int
deriving DecidableEq

/-- The mutable fields of `Node`.  `Slave` is a slice of `*DB`: `none` is the nil slice,
an entry `none` is a nil pointer.  `DownAfterNoAlive` is a `time.Duration` (nanoseconds). -/
structure Node where
  Master : Option Nat
  Slave : Option (List (Option Nat))
  LastSlaveIndex : Int
  RoundRobinQ : List Int
  SlaveWeights : List Int
  DownAfterNoAlive : Int
deriving DecidableEq

/-- Process state: the arena of pools, the node, and the number of calls made so far to
the outside (network, clock). -/
structure World where
  heap : List DB
  node : Node
  tick : Nat
deriving DecidableEq

/-- Errors returned by the node operations. -/
inductive Err where
  | ErrNoMasterConn
  | ErrMasterDown
  | ErrNoSlaveDB
  | ErrSlaveDown
  | ErrAddressNull
  | ErrSlaveExist
  | ErrNoMasterDB
  | atoi
  | openFailed
  | pingFailed
deriving DecidableEq

/-- Modelled from the spec: the parts of the package that `node.go` uses and that are
declared outside the translated files.  `Up`, `Down`, `ManualDown` are the three liveness
constants, pairwise distinct.  `openDB t addr` is the outcome of `Open(addr, ...)` made as
outside call number `t`: `none` when it returns an error, otherwise the initial `state` and
`lastPing` of the pool it constructs for `addr`.  `ping t p` tells whether `DB.Ping` on
pool `p`, made as call number `t`, succeeds.  `now t` is `time.Now().Unix()` at call `t`.
`initBalancer` is `InitBalancer`: from the weights, the new `RoundRobinQ` and
`LastSlaveIndex`. -/
structure Env where
  Up : Int
  Down : Int
  ManualDown : Int
  up_ne_down : Up ≠ Down
  up_ne_manual : Up ≠ ManualDown
  down_ne_manual : Down ≠ ManualDown
  openDB : Nat → String → Option (Int × Int)
  ping : Nat → Nat → Bool
  now : Nat → Int
  initBalancer : List Int → List Int × Int

/-- An `int64` result: `x` reduced to the range from `-2 ^ 63` to `2 ^ 63 - 1`. -/
def wrap64 (x : Int) : Int :=
  (x + 2 ^ 63) % 2 ^ 64 - 2 ^ 63

/-- The `int64` subtraction `a - b`, which wraps around. -/
def sub64 (a b : Int) : Int :=
  wrap64 (a - b)

/-- The `time.Second` constant, in nanoseconds. -/
def Second : Int := 1000000000

/-- The `WeightSplit` constant. -/
def WeightSplit : Char := '@'

/-- The `SlaveSplit` constant. -/
def SlaveSplit : Char := ','

/-! ## Arena access -/

/-- Dereference a `*DB`: `none` for nil (or a pointer outside the arena). -/
def World.load (w : World) (p : Option Nat) : Option DB :=
  match p with
  | none => none
  | some q => w.heap[q]?

/-- One call to the outside has been made. -/
def World.step (w : World) : World :=
  { w with tick := w.tick + 1 }

/-- The store `atomic.StoreInt32(&(db.state), s)`. -/
def World.storeState (w : World) (p : Nat) (s : Int) : World :=
  match w.heap[p]? with
  | none => w
  | some d => { w with heap := w.heap.set p { d with state := s } }

/-- Modelled from the spec: `DB.SetLastPing` records the current time in the pool. -/
def World.setLastPing (E : Env) (w : World) (p : Nat) : World :=
  match w.heap[p]? with
  | none => w.step
  | some d => { w with heap := w.heap.set p { d with lastPing := E.now w.tick }, tick := w.tick + 1 }

/-- The liveness state of the pool at `p`. -/
def World.stateOf (w : World) (p : Nat) : Option Int :=
  (w.heap[p]?).map DB.state

/-- The loops `for k, slave := range slaves { if P(slave) ... }`: index and pointer of the
first entry whose pool satisfies `P`.  `none` is the panic on a nil entry met before a
match, `some none` is a completed loop without a match. -/
def scan (heap : List DB) (P : DB → Bool) : List (Option Nat) → Nat → Option (Option (Nat × Nat))
  | [], _ => some none
  | s :: rest, k =>
    match s with
    | none => none
    | some q =>
      match heap[q]? with
      | none => none
      | some d => if P d then some (some (k, q)) else scan heap P rest (k + 1)

/-! ## `node.go` -/

/-- `Node.OpenDB`: the pool returned by `Open` (nil on error), allocated in the arena. -/
def OpenDB (E : Env) (w : World) (addr : String) : Option Nat × World :=
  match E.openDB w.tick addr with
  | none => (none, w.step)
  | some (st, lp) =>
    (some w.heap.length,
      { w with heap := w.heap ++ [{ addr := addr, state := st, lastPing := lp }],
               tick := w.tick + 1 })

/-- `Node.UpDB`: the pool returned (nil on error) and the error.  Modelled from the spec:
`DB.Close` leaves `addr`, `state`, `lastPing` alone. -/
def UpDB (E : Env) (w : World) (addr : String) : (Option Nat × Option Err) × World :=
  match OpenDB E w addr with
  | (none, w1) => ((none, some Err.openFailed), w1)
  | (some p, w1) =>
    if E.ping w1.tick p then
      ((some p, none), w1.step.storeState p E.Up)
    else
      ((none, some Err.pingFailed), w1.step.storeState p E.Down)

/-- `Node.UpMaster`. -/
def UpMaster (E : Env) (w : World) (addr : String) : Option Err × World :=
  let r := UpDB E w addr
  (r.1.2, { r.2 with node := { r.2.node with Master := r.1.1 } })

/-- `Node.UpSlave`.  The loop compares `slave.addr` for each slot in turn: a nil slot met
before a match is a panic. -/
def UpSlave (E : Env) (w : World) (addr : String) : Option (Option Err) × World :=
  let r := UpDB E w addr
  let w1 := r.2
  let slaves := w1.node.Slave.getD []
  match scan w1.heap (fun d => d.addr == addr) slaves 0 with
  | none => (none, w1)
  | some (some (k, _)) =>
    (some none, { w1 with node := { w1.node with Slave := some (slaves.set k r.1.1) } })
  | some none =>
    (some r.1.2, { w1 with node := { w1.node with Slave := some (slaves ++ [r.1.1]) } })

/-- `Node.DownMaster`. -/
def DownMaster (w : World) (addr : String) (state : Int) : Option Err × World :=
  match w.node.Master with
  | none => (some Err.ErrNoMasterDB, w)
  | some p =>
    match w.heap[p]? with
    | none => (some Err.ErrNoMasterDB, w)
    | some db =>
      if db.addr ≠ addr then (some Err.ErrNoMasterDB, w)
      else (none, w.storeState p state)

/-- `Node.DownSlave`.  The loop stops at the first slot whose address matches; a nil slot
met before it is a panic. -/
def DownSlave (w : World) (addr : String) (state : Int) : Option (Option Err) × World :=
  match w.node.Slave with
  | none => (some (some Err.ErrNoSlaveDB), w)
  | some slaves =>
    match scan w.heap (fun d => d.addr == addr) slaves 0 with
    | none => (none, w)
    | some (some (_, q)) => (some none, w.storeState q state)
    | some none => (some none, w)

/-- `Node.checkMaster`.  It cannot panic: the master is tested for nil first. -/
def checkMaster (E : Env) (w : World) : World :=
  match w.node.Master with
  | none => w
  | some p =>
    match w.heap[p]? with
    | none => w
    | some db =>
      let w1 := w.step
      if E.ping w.tick p then
        let w2 := if db.state = E.Down then (UpMaster E w1 db.addr).2 else w1
        let w3 := w2.setLastPing E p
        if w3.stateOf p ≠ some E.ManualDown then w3.storeState p E.Up else w3
      else
        if 0 < w1.node.DownAfterNoAlive then
          let w2 := w1.step
          if sub64 (E.now w1.tick) db.lastPing > Int.tdiv w2.node.DownAfterNoAlive Second then
            (DownMaster w2 db.addr E.Down).2
          else w2
        else w1

/-- The body of the loop of `Node.CheckSlave` for the snapshot entry `s`.  Modelled from
the spec: `DB.Ping` reads the pool it is called on, so that a nil entry is a panic. -/
def checkSlaveAt (E : Env) (w : World) (s : Option Nat) : Option Unit × World :=
  match w.load s, s with
  | some db, some p =>
    let w1 := w.step
    if E.ping w.tick p then
      let r : Option Unit × World :=
        if db.state = E.Down then
          let u := UpSlave E w1 db.addr
          (u.1.map (fun _ => ()), u.2)
        else (some (), w1)
      match r.1 with
      | none => r
      | some _ =>
        let w3 := r.2.setLastPing E p
        (some (), if w3.stateOf p ≠ some E.ManualDown then w3.storeState p E.Up else w3)
    else
      if 0 < w1.node.DownAfterNoAlive then
        let w2 := w1.step
        if sub64 (E.now w1.tick) db.lastPing > Int.tdiv w2.node.DownAfterNoAlive Second then
          let r := DownSlave w2 db.addr E.Down
          (r.1.map (fun _ => ()), r.2)
        else (some (), w2)
      else (some (), w1)
  | _, _ => (none, w)

/-- The loop of `Node.CheckSlave` over the snapshot `slaves`. -/
def checkSlaves (E : Env) : List (Option Nat) → World → Option Unit × World
  | [], w => (some (), w)
  | s :: rest, w =>
    match checkSlaveAt E w s with
    | (none, w1) => (none, w1)
    | (some _, w1) => checkSlaves E rest w1

/-- `Node.CheckSlave`. -/
def CheckSlave (E : Env) (w : World) : Option Unit × World :=
  match w.node.Slave with
  | none => (some (), w)
  | some slaves => checkSlaves E slaves w

/-- One round of the loop of `Node.CheckNode`. -/
def cycle (E : Env) (w : World) : Option Unit × World :=
  CheckSlave E (checkMaster E w)

/-- The first `k` rounds of `Node.CheckNode`; a panic ends the process. -/
def cycles (E : Env) : Nat → World → Option Unit × World
  | 0, w => (some (), w)
  | k + 1, w =>
    match cycle E w with
    | (none, w1) => (none, w1)
    | (some _, w1) => cycles E k w1

/-- `Node.InitBalancer`, see `Env.initBalancer`. -/
def InitBalancer (E : Env) (w : World) : World :=
  { w with node := { w.node with
      RoundRobinQ := (E.initBalancer w.node.SlaveWeights).1,
      LastSlaveIndex := (E.initBalancer w.node.SlaveWeights).2 } }

/-- `Node.ParseMaster`. -/
def ParseMaster (E : Env) (w : World) (masterStr : String) : Option Err × World :=
  if masterStr.length = 0 then (some Err.ErrNoMasterDB, w)
  else
    match OpenDB E w masterStr with
    | (none, w1) => (some Err.openFailed, { w1 with node := { w1.node with Master := none } })
    | (some p, w1) => (none, { w1 with node := { w1.node with Master := some p } })

/-- The weight of `addrAndWeight` in `ParseSlave` and `AddSlave`: `none` is the error of
`strconv.Atoi`. -/
def weightOf (addrAndWeight : List String) : Option Int :=
  if addrAndWeight.length = 2 then Atoi (addrAndWeight.getD 1 "") else some 1

/-- What `Node.AddSlave` and the loop of `Node.ParseSlave` do with `addrAndWeight`, the
address split at `@`: parse the weight, append it, open the pool, append the pool.  `none`
when the pool was appended, else the error returned. -/
def appendSlave (E : Env) (w : World) (addrAndWeight : List String) : Option Err × World :=
  match weightOf addrAndWeight with
  | none => (some Err.atoi, w)
  | some weight =>
    let w1 : World := { w with node := { w.node with SlaveWeights := w.node.SlaveWeights ++ [weight] } }
    match OpenDB E w1 (addrAndWeight.headD "") with
    | (none, w2) => (some Err.openFailed, w2)
    | (some p, w2) =>
      (none, { w2 with node := { w2.node with Slave := some (w2.node.Slave.getD [] ++ [some p]) } })

/-- The loop of `Node.ParseSlave` over `slaveArray`, then `InitBalancer`. -/
def parseSlaves (E : Env) : List String → World → Option Err × World
  | [], w => (none, InitBalancer E w)
  | s :: rest, w =>
    match appendSlave E w (Split s WeightSplit) with
    | (some e, w1) => (some e, w1)
    | (none, w1) => parseSlaves E rest w1

/-- `Node.ParseSlave`. -/
def ParseSlave (E : Env) (w : World) (slaveStr : String) : Option Err × World :=
  if slaveStr.length = 0 then (none, w)
  else
    parseSlaves E (Split (Trim slaveStr SlaveSplit) SlaveSplit)
      { w with node := { w.node with Slave := some [], SlaveWeights := [] } }

/-- `Node.AddSlave`. -/
def AddSlave (E : Env) (w : World) (addr : String) : Option (Option Err) × World :=
  if addr.length = 0 then (some (some Err.ErrAddressNull), w)
  else
    match scan w.heap
        (fun v => (Split v.addr WeightSplit).headD "" == (Split addr WeightSplit).headD "")
        (w.node.Slave.getD []) 0 with
    | none => (none, w)
    | some (some _) => (some (some Err.ErrSlaveExist), w)
    | some none =>
      match appendSlave E w (Split addr WeightSplit) with
      | (some e, w1) => (some (some e), w1)
      | (none, w1) => (some none, InitBalancer E w1)

/-- `Node.GetMasterConn`: the connection (nil is `none`) and the error returned.  Modelled
from the spec: `getConn t p` is what `DB.GetConn` returns when called on pool `p` as outside
call number `t`; it may dial the server, and leaves `addr`, `state`, `lastPing` alone. -/
def GetMasterConn (E : Env) (getConn : Nat → Nat → Option Nat × Option Err) (w : World) :
    (Option Nat × Option Err) × World :=
  match w.node.Master with
  | none => ((none, some Err.ErrNoMasterConn), w)
  | some p =>
    match w.heap[p]? with
    | none => ((none, some Err.ErrNoMasterConn), w)
    | some db =>
      if db.state = E.Down then ((none, some Err.ErrMasterDown), w)
      else (getConn w.tick p, w.step)

/-! ## `conn_back.go`: the handshake

Bytes are naturals below 256; `uint16` and `uint32` values are naturals reduced modulo
`2 ^ 16` and `2 ^ 32`. -/

/-- The fields of `Conn` the handshake reads and writes. -/
structure Conn where
  user : List Nat
  passwd : List Nat
  db : List Nat
  capability : Nat
  status : Nat
  collation : Nat
  salt : List Nat
deriving DecidableEq

/-- Errors returned by `readInitialHandshake`. -/
inductive HsErr where
  | readPacket
  | errHeader
  | protocolVersion
deriving DecidableEq

/-- Modelled from the spec: `mysql.ERR_HEADER`, the leading byte `0xFF` of an ERR packet. -/
def ERR_HEADER : Nat := 0xff

/-- Modelled from the spec: `mysql.MinProtocolVersion`; the error message of
`readInitialHandshake` reads "must >= 10". -/
def MinProtocolVersion : Nat := 10

/-- The slice expression `data[lo:hi]`; `none` is the panic "slice bounds out of range"
(the capacity of `data` being its length). -/
def slice (data : List Nat) (lo hi : Nat) : Option (List Nat) :=
  if lo ≤ hi ∧ hi ≤ data.length then some ((data.drop lo).take (hi - lo)) else none

/-- Position of the first `b` in `s`, if any. -/
def indexByte? (b : Nat) : List Nat → Option Nat
  | [] => none
  | x :: xs => if x = b then some 0 else (indexByte? b xs).map (fun i => i + 1)

/-- Go `bytes.IndexByte`. -/
def IndexByte (s : List Nat) (b : Nat) : Int :=
  match indexByte? b s with
  | some i => (i : Int)
  | none => -1

/-- Go `binary.LittleEndian.Uint16` on a two-byte slice. -/
def Uint16 (b : List Nat) : Nat :=
  (b.getD 0 0 % 256) ||| ((b.getD 1 0 % 256) <<< 8)

/-- `Conn.readInitialHandshake`.  `pkt` is what `readPacket` returns (`none`: an error).
The outer `none` is a panic (index or slice bounds out of range); otherwise the error
returned, if any, and the connection. -/
def readInitialHandshake (c : Conn) (pkt : Option (List Nat)) : Option (Option HsErr × Conn) :=
  match pkt with
  | none => some (some HsErr.readPacket, c)
  | some data =>
    match data[0]? with
    | none => none
    | some v =>
      if v = ERR_HEADER then some (some HsErr.errHeader, c)
      else if v < MinProtocolVersion then some (some HsErr.protocolVersion, c)
      else
        let pos0 : Nat := (1 + IndexByte (data.drop 1) 0x00 + 1 + 4).toNat
        match slice data pos0 (pos0 + 8) with
        | none => none
        | some s1 =>
          let c1 : Conn := { c with salt := c.salt ++ s1 }
          let pos1 := pos0 + (8 + 1)
          match slice data pos1 (pos1 + 2) with
          | none => none
          | some lo =>
            let c2 : Conn := { c1 with capability := Uint16 lo }
            let pos2 := pos1 + 2
            if data.length > pos2 then
              let pos3 := pos2 + 1
              match slice data pos3 (pos3 + 2) with
              | none => none
              | some st =>
                let c3 : Conn := { c2 with status := Uint16 st }
                let pos4 := pos3 + 2
                match slice data pos4 (pos4 + 2) with
                | none => none
                | some hi =>
                  let c4 : Conn :=
                    { c3 with capability := ((Uint16 hi <<< 16) % 2 ^ 32) ||| c3.capability }
                  let pos5 := pos4 + 2 + (10 + 1)
                  match slice data pos5 (pos5 + 12) with
                  | none => none
                  | some s2 => some (none, { c4 with salt := c4.salt ++ s2 })
            else some (none, c2)

/-- The capability constants of package `mysql` that `writeAuthHandshake` uses, `uint32`
values declared outside the translated files. -/
structure Caps where
  CLIENT_LONG_PASSWORD : Nat
  CLIENT_LONG_FLAG : Nat
  CLIENT_CONNECT_WITH_DB : Nat
  CLIENT_PROTOCOL_41 : Nat
  CLIENT_TRANSACTIONS : Nat
  CLIENT_SECURE_CONNECTION : Nat

/-- The values of the capability constants in the MySQL client/server protocol. -/
def protocolCaps : Caps where
  CLIENT_LONG_PASSWORD := 1
  CLIENT_LONG_FLAG := 4
  CLIENT_CONNECT_WITH_DB := 8
  CLIENT_PROTOCOL_41 := 512
  CLIENT_TRANSACTIONS := 8192
  CLIENT_SECURE_CONNECTION := 32768

/-- Go `copy(data[pos:], src)`: the new `data` and the number of bytes copied. -/
def copyAt (data : List Nat) (pos : Nat) (src : List Nat) : List Nat × Nat :=
  let n := min src.length (data.length - pos)
  (data.take pos ++ src.take n ++ data.drop (pos + n), n)

/-- The flags `writeAuthHandshake` asks for before looking at the server. -/
def baseCapability (K : Caps) : Nat :=
  (K.CLIENT_PROTOCOL_41 ||| K.CLIENT_SECURE_CONNECTION ||| K.CLIENT_LONG_PASSWORD |||
    K.CLIENT_TRANSACTIONS ||| K.CLIENT_LONG_FLAG) % 2 ^ 32

/-- `Conn.writeAuthHandshake`: the packet handed to `writePacket` (whose error is the
one returned) and the connection.  `calcPassword` is `mysql.CalcPassword`. -/
def writeAuthHandshake (K : Caps) (calcPassword : List Nat → List Nat → List Nat) (c : Conn) :
    List Nat × Conn :=
  let capability0 := baseCapability K &&& c.capability
  let length0 := 4 + 4 + 1 + 23
  let length1 := length0 + (c.user.length + 1)
  let auth := calcPassword c.salt c.passwd
  let length2 := length1 + (1 + auth.length)
  let capability := if c.db.length > 0 then (capability0 ||| K.CLIENT_CONNECT_WITH_DB) % 2 ^ 32
                    else capability0
  let length := if c.db.length > 0 then length2 + (c.db.length + 1) else length2
  let c1 : Conn := { c with capability := capability }
  let data0 := List.replicate (length + 4) 0
  let data1 := data0.set 4 (capability % 256)
  let data2 := data1.set 5 ((capability >>> 8) % 256)
  let data3 := data2.set 6 ((capability >>> 16) % 256)
  let data4 := data3.set 7 ((capability >>> 24) % 256)
  let data5 := data4.set 12 (c.collation % 256)
  let pos0 := 13 + 23
  let u := if c.user.length > 0 then copyAt data5 pos0 c.user else (data5, 0)
  let pos1 := pos0 + u.2 + 1
  let data6 := u.1.set pos1 (auth.length % 256)
  let a := copyAt data6 (pos1 + 1) auth
  let d := if c.db.length > 0 then copyAt a.1 (pos1 + (1 + a.2)) c.db else (a.1, 0)
  (d.1, c1)

/-! ## Wire layout of the initial handshake -/

/-- The initial handshake packet up to the capability-low word, followed by `ext`:
protocol version byte, null-terminated version string, connection id, first salt
fragment, filler byte, capability-low. -/
def handshakePacket (v : Nat) (ver connId s1 : List Nat) (filler : Nat) (capLo ext : List Nat) :
    List Nat :=
  v :: (ver ++ 0 :: (connId ++ (s1 ++ filler :: (capLo ++ ext))))

/-- The fields after the capability-low word: charset byte, status, capability-high,
reserved bytes, second salt fragment, and whatever follows. -/
def extendedFields (charset : Nat) (status capHi reserved s2 rest : List Nat) : List Nat :=
  charset :: (status ++ (capHi ++ (reserved ++ (s2 ++ rest))))

/-- The `uint32` stored little-endian in `data[pos .. pos+3]`. -/
def leUint32 (data : List Nat) (pos : Nat) : Nat :=
  data.getD pos 0 + data.getD (pos + 1) 0 * 2 ^ 8 + data.getD (pos + 2) 0 * 2 ^ 16 +
    data.getD (pos + 3) 0 * 2 ^ 24

/-! ## Predicates used to state the health-check theorems -/

/-- Every pool of `w` is still a pool of `w'`, with the same address. -/
def Grow (w w' : World) : Prop :=
  ∀ (q : Nat) (d : DB), w.heap[q]? = some d → ∃ d' : DB, w'.heap[q]? = some d' ∧ d'.addr = d.addr

/-- The replica entry `s` is nil, the pool `p`, or a pool whose address is not `A`. -/
def Other (w : World) (p : Nat) (A : String) (s : Option Nat) : Prop :=
  s = none ∨ s = some p ∨ ((w.load s).isSome = true ∧ (w.load s).map DB.addr ≠ some A)

/-- Replica slot `i` holds the pool `p`, and no slot holds another pool with address `A`. -/
def Held (w : World) (i p : Nat) (A : String) : Prop :=
  ∃ ss, w.node.Slave = some ss ∧ ss[i]? = some (some p) ∧ ∀ s ∈ ss, Other w p A s

/-- What a step that does not concern the pool `p` keeps: the pool `p` itself, the pools
and their addresses, the no-contact timeout and the master. -/
def Keeps (p : Nat) (w w' : World) : Prop :=
  w'.heap[p]? = w.heap[p]? ∧ Grow w w' ∧
    w'.node.DownAfterNoAlive = w.node.DownAfterNoAlive ∧ w'.node.Master = w.node.Master

/-- The pool `p` is in state `ManualDown` and has address `A`. -/
def Pinned (E : Env) (w : World) (p : Nat) (A : String) : Prop :=
  ∃ d : DB, w.heap[p]? = some d ∧ d.state = E.ManualDown ∧ d.addr = A

/-- The replica entry `s` is not a pool in state `Down` with address `A`. -/
def Twinless (E : Env) (w : World) (A : String) (s : Option Nat) : Prop :=
  (w.load s).map (fun d => (d.addr, d.state)) ≠ some (A, E.Down)

/-- Replica slot `i` holds the pool `p`, and no slot holds a `Down` pool with address `A`. -/
def Kept (E : Env) (w : World) (i p : Nat) (A : String) : Prop :=
  ∃ ss, w.node.Slave = some ss ∧ ss[i]? = some (some p) ∧ ∀ s ∈ ss, Twinless E w A s

/-- Every `Down` pool of `w'` with address `A` was one in `w`. -/
def Calm (E : Env) (A : String) (w w' : World) : Prop :=
  ∀ (q : Nat) (d' : DB), w'.heap[q]? = some d' → d'.addr = A → d'.state = E.Down →
    ∃ d : DB, w.heap[q]? = some d ∧ d.addr = A ∧ d.state = E.Down

/-! ## Predicates used to state what the reachable states keep -/

/-- The pool is in state `Down` or `ManualDown`. -/
def Marked (E : Env) (d : DB) : Prop :=
  d.state = E.Down ∨ d.state = E.ManualDown

/-- The replica slots of the node, none for the nil slice. -/
def slotsOf (w : World) : List (Option Nat) :=
  w.node.Slave.getD []

/-- What the operations of `node.go` keep true of a node.  The pools in the replica slots
exist and no pool is in two slots; the master exists and is in no replica slot; and a
replica in state `Down` or `ManualDown` has no pool with its address in an earlier slot. -/
structure Tidy (E : Env) (w : World) : Prop where
  valid : ∀ q : Nat, some q ∈ slotsOf w → q < w.heap.length
  master : ∀ m : Nat, w.node.Master = some m → m < w.heap.length ∧ some m ∉ slotsOf w
  distinct : ∀ i j q : Nat, (slotsOf w)[i]? = some (some q) → (slotsOf w)[j]? = some (some q) → i = j
  first : ∀ (i j q' q : Nat) (d' d : DB), i < j → (slotsOf w)[i]? = some (some q') →
    (slotsOf w)[j]? = some (some q) → w.heap[q']? = some d' → w.heap[q]? = some d →
    Marked E d → d'.addr ≠ d.addr

/-- The pointer `x` is nil, or a pool with address `a`, neither `Down` nor `ManualDown`, that
is not the master and is in no replica slot. -/
def Fresh (E : Env) (w : World) (a : String) (x : Option Nat) : Prop :=
  ∀ p : Nat, x = some p → some p ∉ slotsOf w ∧ w.node.Master ≠ some p ∧
    ∃ d : DB, w.heap[p]? = some d ∧ d.addr = a ∧ ¬ Marked E d

/-- An assumption on `Open`, which is declared outside the translated files: the pools it
builds are neither `Down` nor `ManualDown`. -/
def OpensUnmarked (E : Env) : Prop :=
  ∀ (t : Nat) (a : String) (st lp : Int), E.openDB t a = some (st, lp) →
    st ≠ E.Down ∧ st ≠ E.ManualDown

/-- The two environments have the same liveness constants. -/
def SameConsts (E E' : Env) : Prop :=
  E'.Up = E.Up ∧ E'.Down = E.Down ∧ E'.ManualDown = E.ManualDown

/-- The states `node.go` can reach.  A node starts without master and without replica
list; the operations of `node.go` then run one after the other, each with any outcomes of
`Open`, of the pings and of the clock (the environment `E'` of that step).  `ParseSlave`
and `AddSlave` put the pool that `Open` built in a slot as it is: there `Open` is taken to
build pools that are neither `Down` nor `ManualDown`.  `same` stands for what leaves the
pools, the master and the replica list alone (the balancer, handing out connections);
`checkSlaveAt` is one iteration of the loop of `CheckSlave` on any entry, so that other
operations may run between two iterations.  The state left by a panic counts as reached. -/
inductive Reachable (E : Env) : World → Prop
  | init (w : World) (hm : w.node.Master = none) (hs : w.node.Slave = none) : Reachable E w
  | same (w w' : World) (h : Reachable E w) (hh : w'.heap = w.heap)
      (hm : w'.node.Master = w.node.Master) (hs : w'.node.Slave = w.node.Slave) :
      Reachable E w'
  | openDB (E' : Env) (w : World) (a : String) (h : Reachable E w) :
      Reachable E (OpenDB E' w a).2
  | upDB (E' : Env) (hc : SameConsts E E') (w : World) (a : String) (h : Reachable E w) :
      Reachable E (UpDB E' w a).2
  | parseMaster (E' : Env) (w : World) (s : String) (h : Reachable E w) :
      Reachable E (ParseMaster E' w s).2
  | parseSlave (E' : Env) (hc : SameConsts E E') (ho : OpensUnmarked E') (w : World)
      (s : String) (h : Reachable E w) : Reachable E (ParseSlave E' w s).2
  | addSlave (E' : Env) (hc : SameConsts E E') (ho : OpensUnmarked E') (w : World)
      (a : String) (h : Reachable E w) : Reachable E (AddSlave E' w a).2
  | upMaster (E' : Env) (hc : SameConsts E E') (w : World) (a : String)
      (h : Reachable E w) : Reachable E (UpMaster E' w a).2
  | upSlave (E' : Env) (hc : SameConsts E E') (w : World) (a : String)
      (h : Reachable E w) : Reachable E (UpSlave E' w a).2
  | downMaster (w : World) (a : String) (st : Int) (h : Reachable E w) :
      Reachable E (DownMaster w a st).2
  | downSlave (w : World) (a : String) (st : Int) (h : Reachable E w) :
      Reachable E (DownSlave w a st).2
  | checkMaster (E' : Env) (hc : SameConsts E E') (w : World) (h : Reachable E w) :
      Reachable E (checkMaster E' w)
  | checkSlave (E' : Env) (hc : SameConsts E E') (w : World) (h : Reachable E w) :
      Reachable E (CheckSlave E' w).2
  | checkSlaveAt (E' : Env) (hc : SameConsts E E') (w : World) (s : Option Nat)
      (h : Reachable E w) : Reachable E (checkSlaveAt E' w s).2

/-- Every entry of `l` is a pool of `w`, none is nil. -/
def Whole (w : World) (l : List (Option Nat)) : Prop :=
  ∀ s ∈ l, (w.load s).isSome = true

/-! ## Concrete inputs -/

/-- A concrete environment: the liveness constants numbered 0, 1, 2; `Open` succeeds
exactly when `opens` holds and then builds a pool in state `Up` last pinged at time 0;
pings as `ping` tells; a clock stuck at `t`; the round-robin queue lists slot `i` as many
times as its weight. -/
def envWith (opens : Bool) (ping : Nat → Nat → Bool) (t : Int) : Env where
  Up := 0
  Down := 1
  ManualDown := 2
  up_ne_down := by decide
  up_ne_manual := by decide
  down_ne_manual := by decide
  openDB := fun _ _ => if opens then some (0, 0) else none
  ping := ping
  now := fun _ => t
  initBalancer := fun ws =>
    ((ws.enum.map (fun iw => List.replicate iw.2.toNat (iw.1 : Int))).flatten, 0)

/-- A node with a master and one replica, both manually downed, last pinged at time 0,
and a no-contact timeout of 30 seconds. -/
def downedWorld : World where
  heap := [⟨"10.0.0.1:3306", 2, 0⟩, ⟨"10.0.0.2:3306", 2, 0⟩]
  node := ⟨some 0, some [some 1], 0, [0], [1], 30 * Second⟩
  tick := 0

/-- A node whose master is `Up`, last pinged at time 0, with a no-contact timeout of one
second. -/
def upWorld : World where
  heap := [⟨"10.0.0.1:3306", 0, 0⟩]
  node := ⟨some 0, none, 0, [], [], 1 * Second⟩
  tick := 0

/-- A connection that has not been handshaken yet. -/
def freshConn : Conn where
  user := [114, 111, 111, 116]
  passwd := []
  db := []
  capability := 0
  status := 0
  collation := 33
  salt := []

/-- An initial-handshake payload that ends after the capability-low word: protocol 10,
version "5.1", connection id 1, salt fragment 11..18. -/
def shortHandshake : List Nat :=
  [10, 53, 46, 49, 0, 1, 0, 0, 0, 11, 12, 13, 14, 15, 16, 17, 18, 0, 0xff, 0xf7]

/-- A connection with a database name, facing a server that advertises every flag of
`0xf7ff` except `CLIENT_CONNECT_WITH_DB`. -/
def dbConn : Conn where
  user := [114, 111, 111, 116]
  passwd := []
  db := [116, 101, 115, 116]
  capability := 0xf7f7
  status := 0
  collation := 33
  salt := []

/-- A node with a master and one replica of weight 3, both `Up`. -/
def pairWorld : World where
  heap := [⟨"10.0.0.1:3306", 0, 0⟩, ⟨"10.0.0.2:3306", 0, 0⟩]
  node := ⟨some 0, some [some 1], 0, [0, 0, 0], [3], 30 * Second⟩
  tick := 0

/-- A node whose only replica has the empty string for address. -/
def emptyAddrWorld : World where
  heap := [⟨"", 0, 0⟩]
  node := ⟨none, some [some 0], 0, [0], [1], 30 * Second⟩
  tick := 0

/-- Two replicas with the same address, the first manually downed, the second `Down`. -/
def dupWorld : World where
  heap := [⟨"10.0.0.2:3306", 2, 0⟩, ⟨"10.0.0.2:3306", 1, 0⟩]
  node := ⟨none, some [some 0, some 1], 0, [0, 1], [1, 1], 30 * Second⟩
  tick := 0

/-- Two replicas with the same address, both `Up` and last pinged at time 0, and a
no-contact timeout of 30 seconds. -/
def twinWorld : World where
  heap := [⟨"10.0.0.2:3306", 0, 0⟩, ⟨"10.0.0.2:3306", 0, 0⟩]
  node := ⟨none, some [some 0, some 1], 0, [0, 1], [1, 1], 30 * Second⟩
  tick := 0

/-- A master and two replicas with different addresses, all `Up` and last pinged at time 0,
and a no-contact timeout of 30 seconds. -/
def trioWorld : World where
  heap := [⟨"10.0.0.1:3306", 0, 0⟩, ⟨"10.0.0.2:3306", 0, 0⟩, ⟨"10.0.0.3:3306", 0, 0⟩]
  node := ⟨some 0, some [some 1, some 2], 0, [0, 1], [1, 1], 30 * Second⟩
  tick := 0

/-- A node before any operation, with a no-contact timeout of 30 seconds. -/
def startWorld : World where
  heap := []
  node := ⟨none, none, 0, [], [], 30 * Second⟩
  tick := 0

/-- The node after `ParseMaster`, `ParseSlave` with two replicas, `DownSlave` of the first
replica and `DownMaster` with `ManualDown` (2), and `DownSlave` of the second replica with
`Down` (1). -/
def manualWorld : World :=
  (DownSlave
    (DownMaster
      (DownSlave
        (ParseSlave (envWith true (fun _ _ => true) 0)
          (ParseMaster (envWith true (fun _ _ => true) 0) startWorld "10.0.0.1:3306").2
          "10.0.0.2:3306,10.0.0.3:3306@2").2
        "10.0.0.2:3306" 2).2
      "10.0.0.1:3306" 2).2
    "10.0.0.3:3306" 1).2

/-- A master `Up` whose last ping is recorded at the least `int64`, and a no-contact timeout
of 30 seconds. -/
def wrapWorld : World where
  heap := [⟨"10.0.0.1:3306", 0, -(2 ^ 63)⟩]
  node := ⟨some 0, none, 0, [], [], 30 * Second⟩
  tick := 0

/-- A replica list whose slot 0 is nil (as `UpSlave` leaves it after a failed ping) and
whose slot 1 holds a pool. -/
def nilSlotWorld : World where
  heap := [⟨"10.0.0.2:3306", 0, 0⟩]
  node := ⟨none, some [none, some 0], 0, [0, 1], [1, 1], 30 * Second⟩
  tick := 0

/-- A node whose master is `Down`. -/
def downMasterWorld : World where
  heap := [⟨"10.0.0.1:3306", 1, 0⟩]
  node := ⟨some 0, none, 0, [], [], 30 * Second⟩
  tick := 0

/-- A pool whose `GetConn` hands out connection 7 at every call. -/
def sevenConn : Nat → Nat → Option Nat × Option Err :=
  fun _ _ => (some 7, none)

/-! ## Lemmas -/

/-! ### Bytes of the handshake packets -/

theorem slice_eq (data pre mid post : List Nat) (lo hi : Nat)
    (h : data = pre ++ (mid ++ post)) (hlo : lo = pre.length) (hhi : hi = lo + mid.length) :
    slice data lo hi = some mid := by
  subst h hlo hhi
  unfold slice
  rw [if_pos (by simp)]
  simp

theorem indexByte?_append (b : Nat) (pre post : List Nat) (h : b ∉ pre) :
    indexByte? b (pre ++ b :: post) = some pre.length := by
  induction pre with
  | nil => simp [indexByte?]
  | cons x xs ih =>
    have hx : x ≠ b := fun e => h (by simp [e])
    have hxs : b ∉ xs := fun e => h (by simp [e])
    simp [indexByte?, hx, ih hxs]

theorem copyAt_getElem?_lt (data src : List Nat) (pos i : Nat) (h : i < pos) :
    (copyAt data pos src).1[i]? = data[i]? := by
  unfold copyAt
  by_cases hi : i < data.length
  · have : i < (data.take pos).length := by simp; omega
    simp only []
    rw [List.append_assoc, List.getElem?_append_left this]
    simp [List.getElem?_take, h]
  · have hd : data.length ≤ pos := by omega
    simp only []
    have e1 : data.length - pos = 0 := by omega
    simp [e1, List.take_of_length_le hd, List.drop_of_length_le hd]

theorem set_getElem?_ne (data : List Nat) (j i x : Nat) (h : i ≠ j) :
    (data.set j x)[i]? = data[i]? := by
  simp [List.getElem?_set, h.symm]

theorem auth_bytes (K : Caps) (hash : List Nat → List Nat → List Nat) (c : Conn) :
    (writeAuthHandshake K hash c).1[4]? = some ((writeAuthHandshake K hash c).2.capability % 256) ∧
    (writeAuthHandshake K hash c).1[5]? = some ((writeAuthHandshake K hash c).2.capability >>> 8 % 256) ∧
    (writeAuthHandshake K hash c).1[6]? = some ((writeAuthHandshake K hash c).2.capability >>> 16 % 256) ∧
    (writeAuthHandshake K hash c).1[7]? = some ((writeAuthHandshake K hash c).2.capability >>> 24 % 256) := by
  unfold writeAuthHandshake
  simp only []
  refine ⟨?_, ?_, ?_, ?_⟩ <;>
  · split_ifs <;>
    · simp (disch := omega) only [copyAt_getElem?_lt, set_getElem?_ne]
      simp [List.getElem?_set] <;> omega
theorem le_bytes (n : Nat) (h : n < 2 ^ 32) :
    n % 256 + (n >>> 8 % 256) * 2 ^ 8 + (n >>> 16 % 256) * 2 ^ 16 + (n >>> 24 % 256) * 2 ^ 24 = n := by
  simp only [Nat.shiftRight_eq_div_pow]
  omega

theorem cap_lt (K : Caps) (hash : List Nat → List Nat → List Nat) (c : Conn) :
    (writeAuthHandshake K hash c).2.capability < 2 ^ 32 := by
  have hb : baseCapability K < 2 ^ 32 := Nat.mod_lt _ (by norm_num)
  have h1 : baseCapability K &&& c.capability < 2 ^ 32 :=
    lt_of_le_of_lt Nat.and_le_left hb
  unfold writeAuthHandshake
  simp only []
  split_ifs
  · exact Nat.mod_lt _ (by norm_num)
  · exact h1

/-! ### Splitting an address at `@`, scanning the replica list -/

theorem splitChars_ne_nil (sep : Char) (l : List Char) : splitChars sep l ≠ [] := by
  cases l with
  | nil => simp [splitChars]
  | cons c cs =>
    unfold splitChars
    split_ifs
    · simp
    · split <;> simp

theorem splitChars_head_append (sep : Char) (a b : List Char) :
    (splitChars sep (a ++ sep :: b)).head? = (splitChars sep a).head? := by
  induction a with
  | nil => simp [splitChars]
  | cons c cs ih =>
    simp only [List.cons_append, splitChars]
    split_ifs with h
    · simp
    · have h1 := splitChars_ne_nil sep (cs ++ sep :: b)
      have h2 := splitChars_ne_nil sep cs
      cases e1 : splitChars sep (cs ++ sep :: b) with
      | nil => exact absurd e1 h1
      | cons x xs =>
        cases e2 : splitChars sep cs with
        | nil => exact absurd e2 h2
        | cons y ys =>
          rw [e1, e2] at ih
          simp only [List.head?_cons, Option.some.injEq] at ih
          simp [ih]

theorem Split_head_suffix (A wt : String) :
    (Split (A ++ "@" ++ wt) WeightSplit).headD "" = (Split A WeightSplit).headD "" := by
  have h := splitChars_head_append '@' A.data wt.data
  unfold Split WeightSplit
  have e : (A ++ "@" ++ wt).data = A.data ++ '@' :: wt.data := by
    simp [String.data_append]
  rw [e]
  simp only [List.headD_eq_head?_getD, List.head?_map, h]

theorem scan_found (w : World) (P : DB → Bool) (slaves : List (Option Nat))
    (hall : ∀ s ∈ slaves, (w.load s).isSome = true)
    (hex : ∃ q d, some q ∈ slaves ∧ w.heap[q]? = some d ∧ P d = true) (k : Nat) :
    ∃ r, scan w.heap P slaves k = some (some r) := by
  induction slaves generalizing k with
  | nil => obtain ⟨q, d, hq, _⟩ := hex; simp at hq
  | cons s rest ih =>
    have h0 := hall s (by simp)
    cases s with
    | none => simp [World.load] at h0
    | some q =>
      cases hd : w.heap[q]? with
      | none => simp [World.load, hd] at h0
      | some d =>
        simp only [scan, hd]
        by_cases hp : P d = true
        · simp [hp]
        · simp only [hp, if_false]
          apply ih (fun s hs => hall s (by simp [hs]))
          obtain ⟨q', d', hq', hd', hP'⟩ := hex
          simp only [List.mem_cons, Option.some.injEq] at hq'
          rcases hq' with e | hm
          · subst e; rw [hd] at hd'; cases hd'; exact absurd hP' hp
          · exact ⟨q', d', hm, hd', hP'⟩

theorem splitChars_length (sep : Char) (l : List Char) :
    (splitChars sep l).length = l.count sep + 1 := by
  induction l with
  | nil => simp [splitChars]
  | cons c cs ih =>
    unfold splitChars
    split_ifs with h
    · subst h; simp [ih]
    · have hc : (c :: cs).count sep = cs.count sep := by
        simp [List.count_cons, h]
      rw [hc, ← ih]
      split
      · next e => exact absurd e (splitChars_ne_nil _ _)
      · next e => simp [e]

theorem Split_length (s : String) (sep : Char) :
    (Split s sep).length = s.data.count sep + 1 := by
  simp [Split, splitChars_length]

theorem scan_none (w : World) (P : DB → Bool) (slaves : List (Option Nat))
    (hall : ∀ s ∈ slaves, (w.load s).isSome = true)
    (hno : ∀ s ∈ slaves, (w.load s).map P ≠ some true) (k : Nat) :
    scan w.heap P slaves k = some none := by
  induction slaves generalizing k with
  | nil => rfl
  | cons s rest ih =>
    have h0 := hall s (by simp)
    have h1 := hno s (by simp)
    cases s with
    | none => simp [World.load] at h0
    | some q =>
      cases hd : w.heap[q]? with
      | none => simp [World.load, hd] at h0
      | some d =>
        have hP : P d = false := by simpa [World.load, hd] using h1
        simp only [scan, hd, hP]
        exact ih (fun s hs => hall s (by simp [hs])) (fun s hs => hno s (by simp [hs])) _

theorem string_length_ne_zero (s : String) (h : s ≠ "") : ¬ s.length = 0 := by
  intro h0
  apply h
  have : s.data = [] := List.length_eq_zero.mp h0
  cases s; simp_all

theorem appendSlave_weights (E : Env) (w : World) (parts : List String) (v : Int)
    (hv : weightOf parts = some v) :
    (appendSlave E w parts).2.node.SlaveWeights = w.node.SlaveWeights ++ [v] := by
  unfold appendSlave
  simp only [hv, OpenDB]
  cases E.openDB w.tick (parts.headD "") with
  | none => rfl
  | some r => rfl

/-! ### Updates of the arena -/

theorem Grow.growRefl (w : World) : Grow w w := fun _ d h => ⟨d, h, rfl⟩

theorem Grow.growTrans {w1 w2 w3 : World} (h12 : Grow w1 w2) (h23 : Grow w2 w3) : Grow w1 w3 := by
  intro q d h
  obtain ⟨d2, h2, e2⟩ := h12 q d h
  obtain ⟨d3, h3, e3⟩ := h23 q d2 h2
  exact ⟨d3, h3, e3.trans e2⟩

@[simp]
theorem step_heap (w : World) : w.step.heap = w.heap := rfl
@[simp]
theorem step_node (w : World) : w.step.node = w.node := rfl
@[simp]
theorem step_tick (w : World) : w.step.tick = w.tick + 1 := rfl

@[simp]
theorem storeState_node (w : World) (p : Nat) (s : Int) :
    (w.storeState p s).node = w.node := by
  unfold World.storeState; split <;> rfl

theorem storeState_heap (w : World) (p : Nat) (s : Int) (q : Nat) :
    (w.storeState p s).heap[q]? =
      if q = p then (w.heap[q]?).map (fun d => { d with state := s }) else w.heap[q]? := by
  unfold World.storeState
  by_cases e : q = p
  · subst e
    cases h : w.heap[q]? with
    | none => simp [h]
    | some d =>
      have hl : q < w.heap.length := (List.getElem?_eq_some_iff.mp h).1
      simp [h, List.getElem?_set, hl]
  · cases h : w.heap[p]? with
    | none => simp [e]
    | some d => simp [List.getElem?_set, e, Ne.symm e]

@[simp]
theorem setLastPing_node (E : Env) (w : World) (p : Nat) :
    (w.setLastPing E p).node = w.node := by
  unfold World.setLastPing; split <;> rfl

theorem setLastPing_heap (E : Env) (w : World) (p : Nat) (q : Nat) :
    (w.setLastPing E p).heap[q]? =
      if q = p then (w.heap[q]?).map (fun d => { d with lastPing := E.now w.tick })
      else w.heap[q]? := by
  unfold World.setLastPing
  by_cases e : q = p
  · subst e
    cases h : w.heap[q]? with
    | none => simp [h]
    | some d =>
      have hl : q < w.heap.length := (List.getElem?_eq_some_iff.mp h).1
      simp [h, List.getElem?_set, hl]
  · cases h : w.heap[p]? with
    | none => simp [e]
    | some d => simp [List.getElem?_set, e, Ne.symm e]

theorem Keeps.keepsRefl (p : Nat) (w : World) : Keeps p w w := ⟨rfl, Grow.growRefl w, rfl, rfl⟩

theorem Keeps.keepsTrans {p : Nat} {w1 w2 w3 : World} (h12 : Keeps p w1 w2) (h23 : Keeps p w2 w3) :
    Keeps p w1 w3 :=
  ⟨h23.1.trans h12.1, h12.2.1.growTrans h23.2.1, h23.2.2.1.trans h12.2.2.1,
    h23.2.2.2.trans h12.2.2.2⟩

theorem Grow_storeState (w : World) (q : Nat) (s : Int) : Grow w (w.storeState q s) := by
  intro r d h
  rw [storeState_heap]
  split_ifs with e
  · exact ⟨{ d with state := s }, by rw [h, Option.map_some'], rfl⟩
  · exact ⟨d, h, rfl⟩

theorem Grow_setLastPing (E : Env) (w : World) (q : Nat) : Grow w (w.setLastPing E q) := by
  intro r d h
  rw [setLastPing_heap]
  split_ifs with e
  · exact ⟨{ d with lastPing := E.now w.tick }, by rw [h, Option.map_some'], rfl⟩
  · exact ⟨d, h, rfl⟩

theorem Keeps_step (p : Nat) (w : World) : Keeps p w w.step := ⟨rfl, Grow.growRefl w, rfl, rfl⟩

theorem Keeps_storeState (p : Nat) (w : World) (q : Nat) (s : Int) (h : q ≠ p) :
    Keeps p w (w.storeState q s) :=
  ⟨by rw [storeState_heap, if_neg (Ne.symm h)], Grow_storeState w q s, by simp, by simp⟩

theorem Keeps_setLastPing (E : Env) (p : Nat) (w : World) (q : Nat) (h : q ≠ p) :
    Keeps p w (w.setLastPing E q) :=
  ⟨by rw [setLastPing_heap, if_neg (Ne.symm h)], Grow_setLastPing E w q, by simp, by simp⟩

theorem Other_grow {w w' : World} (hg : Grow w w') (p : Nat) (A : String) (s : Option Nat)
    (h : Other w p A s) : Other w' p A s := by
  rcases h with h | h | ⟨h1, h2⟩
  · exact Or.inl h
  · exact Or.inr (Or.inl h)
  · cases s with
    | none => exact Or.inl rfl
    | some q =>
      cases hq : w.heap[q]? with
      | none => simp [World.load, hq] at h1
      | some d =>
        obtain ⟨d', hd', e⟩ := hg q d hq
        refine Or.inr (Or.inr ?_)
        simp only [World.load, hq, Option.map_some', ne_eq, Option.some.injEq] at h2
        simp [World.load, hd', e, h2]

theorem Held_grow {w w' : World} (hg : Grow w w') (hn : w'.node.Slave = w.node.Slave)
    (i p : Nat) (A : String) (h : Held w i p A) : Held w' i p A := by
  obtain ⟨ss, h1, h2, h3⟩ := h
  exact ⟨ss, by rw [hn, h1], h2, fun s hs => Other_grow hg p A s (h3 s hs)⟩

/-! ### `OpenDB`, `UpDB`, `UpSlave`, `DownSlave` away from a pool `p` -/

theorem OpenDB_node (E : Env) (w : World) (a : String) : (OpenDB E w a).2.node = w.node := by
  unfold OpenDB; split <;> rfl

theorem OpenDB_old (E : Env) (w : World) (a : String) (q : Nat) (d : DB)
    (h : w.heap[q]? = some d) : (OpenDB E w a).2.heap[q]? = some d := by
  unfold OpenDB
  split
  · exact h
  · have hl : q < w.heap.length := (List.getElem?_eq_some_iff.mp h).1
    simp only [List.getElem?_append_left hl, h]

theorem OpenDB_ptr (E : Env) (w : World) (a : String) (r : Nat)
    (h : (OpenDB E w a).1 = some r) :
    r = w.heap.length ∧ ∃ d : DB, (OpenDB E w a).2.heap[r]? = some d ∧ d.addr = a := by
  unfold OpenDB at h ⊢
  split at h
  · simp at h
  · next st lp e =>
    simp only [Option.some.injEq] at h
    subst h
    simp [e]

theorem UpDB_node (E : Env) (w : World) (a : String) : (UpDB E w a).2.node = w.node := by
  have h := OpenDB_node E w a
  unfold UpDB
  split
  · next w1 e => rw [e] at h; exact h
  · next r w1 e =>
    rw [e] at h
    split_ifs <;> simpa using h

theorem UpDB_old (E : Env) (w : World) (a : String) (q : Nat) (d : DB)
    (h : w.heap[q]? = some d) : (UpDB E w a).2.heap[q]? = some d := by
  have h1 := OpenDB_old E w a q d h
  have hl : q < w.heap.length := (List.getElem?_eq_some_iff.mp h).1
  unfold UpDB
  split
  · next w1 e => rw [e] at h1; exact h1
  · next r w1 e =>
    have hr := (OpenDB_ptr E w a r (by rw [e])).1
    rw [e] at h1
    have hne : q ≠ r := by omega
    split_ifs <;> simpa [storeState_heap, hne] using h1

theorem UpDB_ptr (E : Env) (w : World) (a : String) (r : Nat)
    (h : (UpDB E w a).1.1 = some r) :
    ∃ d : DB, (UpDB E w a).2.heap[r]? = some d ∧ d.addr = a := by
  unfold UpDB at h ⊢
  split at h
  · simp at h
  · next r' w1 e =>
    obtain ⟨_, d, hd, ha⟩ := OpenDB_ptr E w a r' (by rw [e])
    rw [e] at hd
    split_ifs at h ⊢ with hp
    simp only [Option.some.injEq] at h
    subst h
    simp [storeState_heap, hd, ha]

theorem Keeps_UpDB (E : Env) (w : World) (a : String) (p : Nat) (d : DB)
    (hp : w.heap[p]? = some d) : Keeps p w (UpDB E w a).2 :=
  ⟨by rw [UpDB_old E w a p d hp, hp], fun q d' h => ⟨d', UpDB_old E w a q d' h, rfl⟩,
    by rw [UpDB_node], by rw [UpDB_node]⟩

theorem scan_some (heap : List DB) (P : DB → Bool) (ss : List (Option Nat)) (k0 k q : Nat)
    (h : scan heap P ss k0 = some (some (k, q))) :
    ∃ j, k = k0 + j ∧ ss[j]? = some (some q) ∧ ∃ d : DB, heap[q]? = some d ∧ P d = true := by
  induction ss generalizing k0 with
  | nil => simp [scan] at h
  | cons s rest ih =>
    cases s with
    | none => simp [scan] at h
    | some r =>
      cases hr : heap[r]? with
      | none => simp [scan, hr] at h
      | some d =>
        simp only [scan, hr] at h
        by_cases hP : P d = true
        · simp only [hP, if_true, Option.some.injEq, Prod.mk.injEq] at h
          obtain ⟨h1, h2⟩ := h
          subst h1 h2
          exact ⟨0, rfl, by simp, d, hr, hP⟩
        · simp only [hP, if_false] at h
          obtain ⟨j, e, hj, hd⟩ := ih (k0 + 1) h
          exact ⟨j + 1, by omega, by simpa using hj, hd⟩

theorem Grow_of_heap_eq {w w' : World} (h : w'.heap = w.heap) : Grow w w' := by
  intro q d hq
  exact ⟨d, by rw [h]; exact hq, rfl⟩

theorem Other_of_ptr (w : World) (p : Nat) (A a : String) (ptr : Option Nat) (ha : a ≠ A)
    (h : ∀ x, ptr = some x → ∃ d : DB, w.heap[x]? = some d ∧ d.addr = a) : Other w p A ptr := by
  cases ptr with
  | none => exact Or.inl rfl
  | some x =>
    obtain ⟨d, hd, e⟩ := h x rfl
    refine Or.inr (Or.inr ?_)
    simp [World.load, hd, e, ha]

theorem UpSlave_frame (E : Env) (w : World) (a : String) (i p : Nat) (A : String) (d : DB)
    (hp : w.heap[p]? = some d) (hA : d.addr = A) (ha : a ≠ A) (hheld : Held w i p A) :
    Keeps p w (UpSlave E w a).2 ∧ Held (UpSlave E w a).2 i p A := by
  have hk := Keeps_UpDB E w a p d hp
  have hn := UpDB_node E w a
  have hptr := UpDB_ptr E w a
  have hheld1 : Held (UpDB E w a).2 i p A := Held_grow hk.2.1 (by rw [hn]) i p A hheld
  unfold UpSlave
  generalize UpDB E w a = r at hk hn hptr hheld1
  obtain ⟨⟨ptr, err⟩, w1⟩ := r
  simp only [] at hk hn hptr hheld1 ⊢
  obtain ⟨ss, hs, hi, hall⟩ := hheld1
  have hp1 : w1.heap[p]? = some d := by rw [hk.1, hp]
  have hnew : Other w1 p A ptr := Other_of_ptr w1 p A a ptr ha hptr
  rw [hs]
  simp only [Option.getD_some]
  cases hscan : scan w1.heap (fun d => d.addr == a) ss 0 with
  | none => exact ⟨hk, ss, hs, hi, hall⟩
  | some m =>
    cases m with
    | none =>
      refine ⟨⟨hk.1, hk.2.1, hk.2.2.1, hk.2.2.2⟩, ss ++ [ptr], rfl, ?_, ?_⟩
      · have hl : i < ss.length := (List.getElem?_eq_some_iff.mp hi).1
        simp only [List.getElem?_append_left hl, hi]
      · intro s hs'
        simp only [List.mem_append, List.mem_singleton] at hs'
        rcases hs' with h | h
        · exact Other_grow (Grow_of_heap_eq rfl) p A s (hall s h)
        · subst h; exact Other_grow (Grow_of_heap_eq rfl) p A s hnew
    | some kq =>
      obtain ⟨k, q⟩ := kq
      obtain ⟨j, hj, hjq, dq, hdq, hP⟩ := scan_some _ _ _ _ _ _ hscan
      have hki : k ≠ i := by
        intro e
        have : j = i := by omega
        subst this
        rw [hi] at hjq
        simp only [Option.some.injEq] at hjq
        subst hjq
        rw [hp1] at hdq
        simp only [Option.some.injEq] at hdq
        subst hdq
        simp only [beq_iff_eq] at hP
        exact ha (hP.symm.trans hA)
      refine ⟨⟨hk.1, hk.2.1, hk.2.2.1, hk.2.2.2⟩, ss.set k ptr, rfl, ?_, ?_⟩
      · rw [List.getElem?_set_ne hki, hi]
      · intro s hs'
        rcases List.mem_or_eq_of_mem_set hs' with h | h
        · exact Other_grow (Grow_of_heap_eq rfl) p A s (hall s h)
        · subst h; exact Other_grow (Grow_of_heap_eq rfl) p A s hnew

theorem DownSlave_frame (w : World) (a : String) (st : Int) (i p : Nat) (A : String) (d : DB)
    (hp : w.heap[p]? = some d) (hA : d.addr = A) (ha : a ≠ A) (hheld : Held w i p A) :
    Keeps p w (DownSlave w a st).2 ∧ Held (DownSlave w a st).2 i p A := by
  obtain ⟨ss, hs, hi, hall⟩ := hheld
  unfold DownSlave
  rw [hs]
  simp only []
  cases hscan : scan w.heap (fun d => d.addr == a) ss 0 with
  | none => exact ⟨Keeps.keepsRefl p w, ss, hs, hi, hall⟩
  | some m =>
    cases m with
    | none => exact ⟨Keeps.keepsRefl p w, ss, hs, hi, hall⟩
    | some kq =>
      obtain ⟨k, q⟩ := kq
      obtain ⟨j, _, _, dq, hdq, hP⟩ := scan_some _ _ _ _ _ _ hscan
      have hqp : q ≠ p := by
        intro e
        subst e
        rw [hp] at hdq
        simp only [Option.some.injEq] at hdq
        subst hdq
        simp only [beq_iff_eq] at hP
        exact ha (hP.symm.trans hA)
      have hk := Keeps_storeState p w q st hqp
      exact ⟨hk, Held_grow hk.2.1 (by simp) i p A ⟨ss, hs, hi, hall⟩⟩

/-! ### One replica check -/

theorem checkSlaveAt_nil (E : Env) (w : World) (s : Option Nat) (h : w.load s = none) :
    checkSlaveAt E w s = (none, w) := by
  cases s with
  | none => rfl
  | some q =>
    have hq : w.heap[q]? = none := h
    simp only [checkSlaveAt, World.load, hq]

theorem checkSlaveAt_some (E : Env) (w : World) (p : Nat) (db : DB) (h : w.heap[p]? = some db) :
    checkSlaveAt E w (some p) =
      if E.ping w.tick p then
        (if db.state = E.Down then
          (match (UpSlave E w.step db.addr).1 with
           | none => (none, (UpSlave E w.step db.addr).2)
           | some _ =>
             (some (),
               if ((UpSlave E w.step db.addr).2.setLastPing E p).stateOf p ≠ some E.ManualDown
               then ((UpSlave E w.step db.addr).2.setLastPing E p).storeState p E.Up
               else (UpSlave E w.step db.addr).2.setLastPing E p))
        else
          (some (),
            if (w.step.setLastPing E p).stateOf p ≠ some E.ManualDown
            then (w.step.setLastPing E p).storeState p E.Up
            else w.step.setLastPing E p))
      else
        if 0 < w.node.DownAfterNoAlive then
          if sub64 (E.now (w.tick + 1)) db.lastPing > Int.tdiv w.node.DownAfterNoAlive Second then
            ((DownSlave w.step.step db.addr E.Down).1.map (fun _ => ()),
              (DownSlave w.step.step db.addr E.Down).2)
          else (some (), w.step.step)
        else (some (), w.step) := by
  unfold checkSlaveAt
  simp only [World.load, h, step_node, step_tick]
  by_cases hping : E.ping w.tick p = true
  · simp only [hping, if_true]
    by_cases hd : db.state = E.Down
    · simp only [hd, if_true]
      cases (UpSlave E w.step db.addr).1 <;> rfl
    · simp only [hd, if_false]
  · simp only [hping]
    rfl

theorem tail_frame (E : Env) (w w' : World) (q i p : Nat) (A : String) (hqp : q ≠ p)
    (hk : Keeps p w w') (hheld : Held w' i p A) :
    Keeps p w (if (w'.setLastPing E q).stateOf q ≠ some E.ManualDown
               then (w'.setLastPing E q).storeState q E.Up else w'.setLastPing E q) ∧
    Held (if (w'.setLastPing E q).stateOf q ≠ some E.ManualDown
          then (w'.setLastPing E q).storeState q E.Up else w'.setLastPing E q) i p A := by
  have k1 := Keeps_setLastPing E p w' q hqp
  have h1 : Held (w'.setLastPing E q) i p A := Held_grow k1.2.1 (by simp) i p A hheld
  split_ifs
  · have k2 := Keeps_storeState p (w'.setLastPing E q) q E.Up hqp
    exact ⟨hk.keepsTrans (k1.keepsTrans k2), Held_grow k2.2.1 (by simp) i p A h1⟩
  · exact ⟨hk.keepsTrans k1, h1⟩

theorem checkSlaveAt_other (E : Env) (w : World) (s : Option Nat) (i p : Nat) (A : String)
    (d : DB) (hp : w.heap[p]? = some d) (hA : d.addr = A) (hheld : Held w i p A)
    (hs : s ≠ some p) (ho : Other w p A s) :
    Keeps p w (checkSlaveAt E w s).2 ∧ Held (checkSlaveAt E w s).2 i p A := by
  cases hl : w.load s with
  | none => rw [checkSlaveAt_nil E w s hl]; exact ⟨Keeps.keepsRefl p w, hheld⟩
  | some dq =>
    cases s with
    | none => simp [World.load] at hl
    | some q =>
      have hqp : q ≠ p := fun e => hs (by rw [e])
      have hq : w.heap[q]? = some dq := hl
      have ha : dq.addr ≠ A := by
        rcases ho with h | h | ⟨_, h⟩
        · cases h
        · exact absurd h hs
        · simpa [hl] using h
      have ks := Keeps_step p w
      have hs1 : Held w.step i p A := Held_grow ks.2.1 rfl i p A hheld
      have kss : Keeps p w w.step.step := ks.keepsTrans (Keeps_step p w.step)
      have hs2 : Held w.step.step i p A := Held_grow kss.2.1 rfl i p A hheld
      rw [checkSlaveAt_some E w q dq hq]
      by_cases hping : E.ping w.tick q = true
      · rw [if_pos hping]
        by_cases hdown : dq.state = E.Down
        · rw [if_pos hdown]
          obtain ⟨ku, hu⟩ := UpSlave_frame E w.step dq.addr i p A d hp hA ha hs1
          cases (UpSlave E w.step dq.addr).1 with
          | none => exact ⟨ks.keepsTrans ku, hu⟩
          | some _ => exact tail_frame E w _ q i p A hqp (ks.keepsTrans ku) hu
        · rw [if_neg hdown]
          exact tail_frame E w _ q i p A hqp ks hs1
      · rw [if_neg hping]
        by_cases hcfg : 0 < w.node.DownAfterNoAlive
        · rw [if_pos hcfg]
          by_cases hlate : sub64 (E.now (w.tick + 1)) dq.lastPing
              > Int.tdiv w.node.DownAfterNoAlive Second
          · rw [if_pos hlate]
            obtain ⟨kd, hd⟩ :=
              DownSlave_frame w.step.step dq.addr E.Down i p A d hp hA ha hs2
            exact ⟨kss.keepsTrans kd, hd⟩
          · rw [if_neg hlate]
            exact ⟨kss, hs2⟩
        · rw [if_neg hcfg]
          exact ⟨ks, hs1⟩

/-! ### Health checks whose pings succeed -/

theorem Keeps_UpSlave (E : Env) (w : World) (a : String) (p : Nat) (d : DB)
    (hp : w.heap[p]? = some d) : Keeps p w (UpSlave E w a).2 := by
  have hk := Keeps_UpDB E w a p d hp
  unfold UpSlave
  generalize UpDB E w a = r at hk
  obtain ⟨⟨ptr, err⟩, w1⟩ := r
  simp only [] at hk ⊢
  cases scan w1.heap (fun d => d.addr == a) (w1.node.Slave.getD []) 0 with
  | none => exact hk
  | some m =>
    cases m with
    | none => exact ⟨hk.1, hk.2.1, hk.2.2.1, hk.2.2.2⟩
    | some kq => exact ⟨hk.1, hk.2.1, hk.2.2.1, hk.2.2.2⟩

theorem tail_keeps (E : Env) (w w' : World) (q p : Nat) (hqp : q ≠ p) (hk : Keeps p w w') :
    Keeps p w (if (w'.setLastPing E q).stateOf q ≠ some E.ManualDown
               then (w'.setLastPing E q).storeState q E.Up else w'.setLastPing E q) := by
  have k1 := Keeps_setLastPing E p w' q hqp
  split_ifs
  · exact hk.keepsTrans (k1.keepsTrans (Keeps_storeState p (w'.setLastPing E q) q E.Up hqp))
  · exact hk.keepsTrans k1

theorem checkSlaveAt_keeps (E : Env) (w : World) (s : Option Nat) (p : Nat) (d : DB)
    (hp : w.heap[p]? = some d) (hs : s ≠ some p) (hping : ∀ t q, E.ping t q = true) :
    Keeps p w (checkSlaveAt E w s).2 := by
  cases hl : w.load s with
  | none => rw [checkSlaveAt_nil E w s hl]; exact Keeps.keepsRefl p w
  | some dq =>
    cases s with
    | none => simp [World.load] at hl
    | some q =>
      have hqp : q ≠ p := fun e => hs (by rw [e])
      have hq : w.heap[q]? = some dq := hl
      have ks := Keeps_step p w
      rw [checkSlaveAt_some E w q dq hq, if_pos (hping _ _)]
      by_cases hdown : dq.state = E.Down
      · rw [if_pos hdown]
        have ku := Keeps_UpSlave E w.step dq.addr p d hp
        cases (UpSlave E w.step dq.addr).1 with
        | none => exact ks.keepsTrans ku
        | some _ => exact tail_keeps E w _ q p hqp (ks.keepsTrans ku)
      · rw [if_neg hdown]
        exact tail_keeps E w _ q p hqp ks

theorem checkSlaveAt_manual (E : Env) (w : World) (p : Nat) (d : DB)
    (hp : w.heap[p]? = some d) (hmd : d.state = E.ManualDown) (hping : E.ping w.tick p = true) :
    checkSlaveAt E w (some p) = (some (), w.step.setLastPing E p) := by
  have hnd : ¬ d.state = E.Down := by rw [hmd]; exact Ne.symm E.down_ne_manual
  rw [checkSlaveAt_some E w p d hp, if_pos hping, if_neg hnd]
  have : (w.step.setLastPing E p).stateOf p = some E.ManualDown := by
    simp [World.stateOf, setLastPing_heap, hp, hmd]
  rw [if_neg (by simp [this])]

theorem Pinned_setLastPing (E : Env) (w : World) (p : Nat) (A : String)
    (h : Pinned E w p A) : Pinned E (w.step.setLastPing E p) p A := by
  obtain ⟨d, hd, h1, h2⟩ := h
  exact ⟨{ d with lastPing := E.now (w.tick + 1) }, by simp [setLastPing_heap, hd], h1, h2⟩

theorem Pinned_keeps (E : Env) {w w' : World} (p : Nat) (A : String) (hk : Keeps p w w')
    (h : Pinned E w p A) : Pinned E w' p A := by
  obtain ⟨d, hd, h1, h2⟩ := h
  exact ⟨d, by rw [hk.1, hd], h1, h2⟩

/-- One replica check with successful pings: a manually downed pool stays so, pools keep
their addresses, the master is left alone. -/
theorem checkSlaveAt_sticky (E : Env) (hping : ∀ t q, E.ping t q = true) (w : World)
    (s : Option Nat) (p : Nat) (A : String) (h : Pinned E w p A) :
    Pinned E (checkSlaveAt E w s).2 p A ∧ Grow w (checkSlaveAt E w s).2 ∧
      (checkSlaveAt E w s).2.node.Master = w.node.Master ∧
      (s = some p → (checkSlaveAt E w s).2.node.Slave = w.node.Slave) := by
  obtain ⟨d, hd, h1, h2⟩ := h
  by_cases hs : s = some p
  · subst hs
    rw [checkSlaveAt_manual E w p d hd h1 (hping _ _)]
    exact ⟨Pinned_setLastPing E w p A ⟨d, hd, h1, h2⟩,
      (Grow.growRefl w).growTrans (Grow_setLastPing E w.step p), by simp, fun _ => by simp⟩
  · have hk := checkSlaveAt_keeps E w s p d hd hs hping
    exact ⟨Pinned_keeps E p A hk ⟨d, hd, h1, h2⟩, hk.2.1, hk.2.2.2, fun e => absurd e hs⟩

theorem checkSlaves_sticky (E : Env) (hping : ∀ t q, E.ping t q = true)
    (ss : List (Option Nat)) (w : World) (p : Nat) (A : String) (h : Pinned E w p A) :
    Pinned E (checkSlaves E ss w).2 p A ∧ Grow w (checkSlaves E ss w).2 ∧
      (checkSlaves E ss w).2.node.Master = w.node.Master := by
  induction ss generalizing w with
  | nil => exact ⟨h, Grow.growRefl w, rfl⟩
  | cons s rest ih =>
    have hb := checkSlaveAt_sticky E hping w s p A h
    unfold checkSlaves
    generalize checkSlaveAt E w s = r at hb
    obtain ⟨o, w1⟩ := r
    cases o with
    | none => exact ⟨hb.1, hb.2.1, hb.2.2.1⟩
    | some u =>
      have := ih w1 hb.1
      exact ⟨this.1, hb.2.1.growTrans this.2.1, this.2.2.trans hb.2.2.1⟩

theorem Calm.calmRefl (E : Env) (A : String) (w : World) : Calm E A w w :=
  fun _ d h1 h2 h3 => ⟨d, h1, h2, h3⟩

theorem Calm.calmTrans {E : Env} {A : String} {w1 w2 w3 : World} (h12 : Calm E A w1 w2)
    (h23 : Calm E A w2 w3) : Calm E A w1 w3 := by
  intro q d3 h1 h2 h3
  obtain ⟨d2, g1, g2, g3⟩ := h23 q d3 h1 h2 h3
  exact h12 q d2 g1 g2 g3

theorem Calm_of_heap_eq (E : Env) (A : String) {w w' : World} (h : w'.heap = w.heap) :
    Calm E A w w' := by
  intro q d h1 h2 h3
  exact ⟨d, by rw [← h]; exact h1, h2, h3⟩

theorem Calm_setLastPing (E : Env) (A : String) (w : World) (q : Nat) :
    Calm E A w (w.setLastPing E q) := by
  intro r d' h1 h2 h3
  rw [setLastPing_heap] at h1
  split_ifs at h1 with e
  · cases hr : w.heap[r]? with
    | none => rw [hr] at h1; simp at h1
    | some d =>
      rw [hr] at h1
      simp only [Option.map_some', Option.some.injEq] at h1
      subst h1
      exact ⟨d, rfl, h2, h3⟩
  · exact ⟨d', h1, h2, h3⟩

theorem Calm_storeUp (E : Env) (A : String) (w : World) (q : Nat) :
    Calm E A w (w.storeState q E.Up) := by
  intro r d' h1 h2 h3
  rw [storeState_heap] at h1
  split_ifs at h1 with e
  · cases hr : w.heap[r]? with
    | none => rw [hr] at h1; simp at h1
    | some d =>
      rw [hr] at h1
      simp only [Option.map_some', Option.some.injEq] at h1
      subst h1
      exact absurd h3 E.up_ne_down
  · exact ⟨d', h1, h2, h3⟩

theorem UpDB_heap_ok (E : Env) (hping : ∀ t q, E.ping t q = true) (w : World) (a : String) :
    ((UpDB E w a).1.1 = none ∧ (UpDB E w a).2.heap = w.heap) ∨
    ∃ lp, (UpDB E w a).1.1 = some w.heap.length ∧
      (UpDB E w a).2.heap = w.heap ++ [⟨a, E.Up, lp⟩] := by
  unfold UpDB OpenDB
  cases E.openDB w.tick a with
  | none => exact Or.inl ⟨rfl, rfl⟩
  | some r =>
    obtain ⟨st, lp⟩ := r
    refine Or.inr ⟨lp, ?_⟩
    simp [hping, World.storeState]

theorem Calm_UpDB (E : Env) (hping : ∀ t q, E.ping t q = true) (A : String) (w : World)
    (a : String) : Calm E A w (UpDB E w a).2 := by
  rcases UpDB_heap_ok E hping w a with ⟨_, h⟩ | ⟨lp, _, h⟩
  · exact Calm_of_heap_eq E A h
  · intro q d' h1 h2 h3
    rw [h] at h1
    by_cases hq : q < w.heap.length
    · rw [List.getElem?_append_left hq] at h1
      exact ⟨d', h1, h2, h3⟩
    · rw [List.getElem?_append_right (not_lt.mp hq)] at h1
      cases hk : q - w.heap.length with
      | zero =>
        rw [hk] at h1
        simp only [List.getElem?_cons_zero, Option.some.injEq] at h1
        subst h1
        exact absurd h3 E.up_ne_down
      | succ n => rw [hk] at h1; simp at h1

theorem Twinless_calm {E : Env} {A : String} {w w' : World} (hc : Calm E A w w')
    (s : Option Nat) (h : Twinless E w A s) : Twinless E w' A s := by
  unfold Twinless at h ⊢
  intro e
  apply h
  cases s with
  | none => simp [World.load] at e
  | some q =>
    cases hq : w'.heap[q]? with
    | none => simp [World.load, hq] at e
    | some d' =>
      simp only [World.load, hq, Option.map_some', Option.some.injEq, Prod.mk.injEq] at e
      obtain ⟨d, g1, g2, g3⟩ := hc q d' hq e.1 e.2
      simp [World.load, g1, g2, g3]

theorem Kept_calm {E : Env} {A : String} {w w' : World} (hc : Calm E A w w')
    (hn : w'.node.Slave = w.node.Slave) (i p : Nat) (h : Kept E w i p A) : Kept E w' i p A := by
  obtain ⟨ss, h1, h2, h3⟩ := h
  exact ⟨ss, by rw [hn, h1], h2, fun s hs => Twinless_calm hc s (h3 s hs)⟩

theorem Twinless_of_addr (E : Env) (w : World) (A a : String) (ptr : Option Nat) (ha : a ≠ A)
    (h : ∀ x, ptr = some x → ∃ d : DB, w.heap[x]? = some d ∧ d.addr = a) :
    Twinless E w A ptr := by
  unfold Twinless
  cases ptr with
  | none => simp [World.load]
  | some x =>
    obtain ⟨d, hd, e⟩ := h x rfl
    simp [World.load, hd, e, ha]

theorem UpSlave_kept (E : Env) (hping : ∀ t q, E.ping t q = true) (w : World) (a : String)
    (i p : Nat) (A : String) (d : DB) (hp : w.heap[p]? = some d) (hA : d.addr = A)
    (ha : a ≠ A) (hkept : Kept E w i p A) :
    Kept E (UpSlave E w a).2 i p A ∧ Calm E A w (UpSlave E w a).2 := by
  have hc := Calm_UpDB E hping A w a
  have hk := Keeps_UpDB E w a p d hp
  have hn := UpDB_node E w a
  have hptr := UpDB_ptr E w a
  have hkept1 : Kept E (UpDB E w a).2 i p A := Kept_calm hc (by rw [hn]) i p hkept
  unfold UpSlave
  generalize UpDB E w a = r at hc hk hn hptr hkept1
  obtain ⟨⟨ptr, err⟩, w1⟩ := r
  simp only [] at hc hk hn hptr hkept1 ⊢
  obtain ⟨ss, hs, hi, hall⟩ := hkept1
  have hp1 : w1.heap[p]? = some d := by rw [hk.1, hp]
  have hnew : Twinless E w1 A ptr := Twinless_of_addr E w1 A a ptr ha hptr
  rw [hs]
  simp only [Option.getD_some]
  cases hscan : scan w1.heap (fun d => d.addr == a) ss 0 with
  | none => exact ⟨⟨ss, hs, hi, hall⟩, hc⟩
  | some m =>
    cases m with
    | none =>
      refine ⟨⟨ss ++ [ptr], rfl, ?_, ?_⟩, hc.calmTrans (Calm_of_heap_eq E A rfl)⟩
      · have hl : i < ss.length := (List.getElem?_eq_some_iff.mp hi).1
        simp only [List.getElem?_append_left hl, hi]
      · intro s hs'
        simp only [List.mem_append, List.mem_singleton] at hs'
        rcases hs' with h | h
        · exact Twinless_calm (Calm_of_heap_eq E A rfl) s (hall s h)
        · subst h; exact Twinless_calm (Calm_of_heap_eq E A rfl) s hnew
    | some kq =>
      obtain ⟨k, q⟩ := kq
      obtain ⟨j, hj, hjq, dq, hdq, hP⟩ := scan_some _ _ _ _ _ _ hscan
      have hki : k ≠ i := by
        intro e
        have : j = i := by omega
        subst this
        rw [hi] at hjq
        simp only [Option.some.injEq] at hjq
        subst hjq
        rw [hp1] at hdq
        simp only [Option.some.injEq] at hdq
        subst hdq
        simp only [beq_iff_eq] at hP
        exact ha (hP.symm.trans hA)
      refine ⟨⟨ss.set k ptr, rfl, ?_, ?_⟩, hc.calmTrans (Calm_of_heap_eq E A rfl)⟩
      · rw [List.getElem?_set_ne hki, hi]
      · intro s hs'
        rcases List.mem_or_eq_of_mem_set hs' with h | h
        · exact Twinless_calm (Calm_of_heap_eq E A rfl) s (hall s h)
        · subst h; exact Twinless_calm (Calm_of_heap_eq E A rfl) s hnew

theorem tail_kept (E : Env) (w w' : World) (q i p : Nat) (A : String)
    (hc : Calm E A w w') (hkept : Kept E w' i p A) :
    Kept E (if (w'.setLastPing E q).stateOf q ≠ some E.ManualDown
            then (w'.setLastPing E q).storeState q E.Up else w'.setLastPing E q) i p A ∧
    Calm E A w (if (w'.setLastPing E q).stateOf q ≠ some E.ManualDown
                then (w'.setLastPing E q).storeState q E.Up else w'.setLastPing E q) := by
  have c1 := Calm_setLastPing E A w' q
  have h1 : Kept E (w'.setLastPing E q) i p A := Kept_calm c1 (by simp) i p hkept
  split_ifs
  · have c2 := Calm_storeUp E A (w'.setLastPing E q) q
    exact ⟨Kept_calm c2 (by simp) i p h1, hc.calmTrans (c1.calmTrans c2)⟩
  · exact ⟨h1, hc.calmTrans c1⟩

/-- One replica check with successful pings: the slot of a manually downed pool is left
alone when no replica slot holds a `Down` pool with its address. -/
theorem checkSlaveAt_kept (E : Env) (hping : ∀ t q, E.ping t q = true) (w : World)
    (s : Option Nat) (i p : Nat) (A : String) (h : Pinned E w p A) (hkept : Kept E w i p A)
    (ht : Twinless E w A s) :
    Kept E (checkSlaveAt E w s).2 i p A ∧ Calm E A w (checkSlaveAt E w s).2 := by
  obtain ⟨d, hd, h1, h2⟩ := h
  cases hl : w.load s with
  | none => rw [checkSlaveAt_nil E w s hl]; exact ⟨hkept, Calm.calmRefl E A w⟩
  | some dq =>
    cases s with
    | none => simp [World.load] at hl
    | some q =>
      have hq : w.heap[q]? = some dq := hl
      have cs : Calm E A w w.step := Calm_of_heap_eq E A rfl
      have hs1 : Kept E w.step i p A := Kept_calm cs rfl i p hkept
      rw [checkSlaveAt_some E w q dq hq, if_pos (hping _ _)]
      by_cases hdown : dq.state = E.Down
      · rw [if_pos hdown]
        have ha : dq.addr ≠ A := by
          intro e
          apply ht
          simp [World.load, hq, e, hdown]
        obtain ⟨ku, cu⟩ := UpSlave_kept E hping w.step dq.addr i p A d hd h2 ha hs1
        cases (UpSlave E w.step dq.addr).1 with
        | none => exact ⟨ku, cs.calmTrans cu⟩
        | some _ => exact tail_kept E w _ q i p A (cs.calmTrans cu) ku
      · rw [if_neg hdown]
        exact tail_kept E w _ q i p A cs hs1

theorem checkSlaves_kept (E : Env) (hping : ∀ t q, E.ping t q = true)
    (ss : List (Option Nat)) (w : World) (i p : Nat) (A : String) (h : Pinned E w p A)
    (hkept : Kept E w i p A) (ho : ∀ s ∈ ss, Twinless E w A s) :
    Kept E (checkSlaves E ss w).2 i p A := by
  induction ss generalizing w with
  | nil => exact hkept
  | cons s rest ih =>
    have hb := checkSlaveAt_sticky E hping w s p A h
    have hh := checkSlaveAt_kept E hping w s i p A h hkept (ho s (by simp))
    unfold checkSlaves
    generalize checkSlaveAt E w s = r at hb hh
    obtain ⟨o, w1⟩ := r
    cases o with
    | none => exact hh.1
    | some u =>
      exact ih w1 hb.1 hh.1 (fun s' hs' => Twinless_calm hh.2 s' (ho s' (by simp [hs'])))

/-! ### The master check, and whole cycles, when pings succeed -/

theorem checkMaster_nil (E : Env) (w : World) (h : w.load w.node.Master = none) :
    checkMaster E w = w := by
  unfold checkMaster
  cases hm : w.node.Master with
  | none => rfl
  | some m =>
    have hq : w.heap[m]? = none := by rw [hm] at h; exact h
    simp only [hq]

theorem checkMaster_some (E : Env) (w : World) (m : Nat) (db : DB)
    (hm : w.node.Master = some m) (h : w.heap[m]? = some db) :
    checkMaster E w =
      if E.ping w.tick m then
        if ((if db.state = E.Down then (UpMaster E w.step db.addr).2 else w.step).setLastPing
              E m).stateOf m ≠ some E.ManualDown
        then ((if db.state = E.Down then (UpMaster E w.step db.addr).2 else w.step).setLastPing
              E m).storeState m E.Up
        else (if db.state = E.Down then (UpMaster E w.step db.addr).2 else w.step).setLastPing E m
      else
        if 0 < w.node.DownAfterNoAlive then
          if sub64 (E.now (w.tick + 1)) db.lastPing > Int.tdiv w.node.DownAfterNoAlive Second then
            (DownMaster w.step.step db.addr E.Down).2
          else w.step.step
        else w.step := by
  unfold checkMaster
  simp only [hm, h, step_node, step_tick]

/-- What `checkMaster` keeps of a pool `p` that is not the master it checks. -/
theorem UpMaster_frame (E : Env) (w : World) (a : String) (p : Nat) (d : DB)
    (hp : w.heap[p]? = some d) :
    (UpMaster E w a).2.heap[p]? = some d ∧ Grow w (UpMaster E w a).2 ∧
      (UpMaster E w a).2.node.Slave = w.node.Slave := by
  have hk := Keeps_UpDB E w a p d hp
  have hn := UpDB_node E w a
  unfold UpMaster
  generalize UpDB E w a = r at hk hn
  obtain ⟨⟨ptr, err⟩, w1⟩ := r
  simp only [] at hk hn ⊢
  exact ⟨by rw [hk.1, hp], hk.2.1, by rw [hn]⟩

theorem checkMaster_sticky (E : Env) (hping : ∀ t q, E.ping t q = true) (w : World) (p : Nat)
    (A : String) (h : Pinned E w p A) :
    Pinned E (checkMaster E w) p A ∧ Grow w (checkMaster E w) ∧
      (checkMaster E w).node.Slave = w.node.Slave ∧
      (w.node.Master = some p → (checkMaster E w).node.Master = some p) := by
  obtain ⟨d, hd, h1, h2⟩ := h
  cases hl : w.load w.node.Master with
  | none =>
    rw [checkMaster_nil E w hl]
    exact ⟨⟨d, hd, h1, h2⟩, Grow.growRefl w, rfl, fun e => e⟩
  | some dm =>
    cases hm : w.node.Master with
    | none => rw [hm] at hl; simp [World.load] at hl
    | some m =>
      have hq : w.heap[m]? = some dm := by rw [hm] at hl; exact hl
      rw [checkMaster_some E w m dm hm hq, if_pos (hping _ _)]
      by_cases hmp : m = p
      · subst hmp
        rw [hd] at hq
        simp only [Option.some.injEq] at hq
        subst hq
        have hnd : ¬ d.state = E.Down := by rw [h1]; exact Ne.symm E.down_ne_manual
        rw [if_neg hnd]
        have : (w.step.setLastPing E m).stateOf m = some E.ManualDown := by
          simp [World.stateOf, setLastPing_heap, hd, h1]
        rw [if_neg (by simp [this])]
        exact ⟨Pinned_setLastPing E w m A ⟨d, hd, h1, h2⟩,
          (Grow.growRefl w).growTrans (Grow_setLastPing E w.step m), by simp, fun _ => by simp [hm]⟩
      · have key : ∀ w2 : World, w2.heap[p]? = some d → Grow w w2 →
            w2.node.Slave = w.node.Slave →
            Pinned E (if (w2.setLastPing E m).stateOf m ≠ some E.ManualDown
              then (w2.setLastPing E m).storeState m E.Up else w2.setLastPing E m) p A ∧
            Grow w (if (w2.setLastPing E m).stateOf m ≠ some E.ManualDown
              then (w2.setLastPing E m).storeState m E.Up else w2.setLastPing E m) ∧
            (if (w2.setLastPing E m).stateOf m ≠ some E.ManualDown
              then (w2.setLastPing E m).storeState m E.Up else w2.setLastPing E m).node.Slave
              = w.node.Slave := by
          intro w2 e2 g2 n2
          have k1 := Keeps_setLastPing E p w2 m hmp
          have k2 := Keeps_storeState p (w2.setLastPing E m) m E.Up hmp
          split_ifs
          · exact ⟨⟨d, by rw [k2.1, k1.1, e2], h1, h2⟩, g2.growTrans (k1.2.1.growTrans k2.2.1),
              by simp [n2]⟩
          · exact ⟨⟨d, by rw [k1.1, e2], h1, h2⟩, g2.growTrans k1.2.1, by simp [n2]⟩
        have hne : w.node.Master = some p → False := by
          intro e; rw [hm] at e; exact hmp (Option.some.inj e)
        by_cases hdown : dm.state = E.Down
        · simp only [if_pos hdown]
          obtain ⟨u1, u2, u3⟩ := UpMaster_frame E w.step dm.addr p d hd
          obtain ⟨r1, r2, r3⟩ := key _ u1 u2 u3
          exact ⟨r1, r2, r3, fun e => absurd (hm ▸ e) (fun e' => hne (hm ▸ e'))⟩
        · simp only [if_neg hdown]
          obtain ⟨r1, r2, r3⟩ := key w.step hd (Grow.growRefl w) rfl
          exact ⟨r1, r2, r3, fun e => absurd (hm ▸ e) (fun e' => hne (hm ▸ e'))⟩

theorem checkMaster_calm (E : Env) (hping : ∀ t q, E.ping t q = true) (A : String)
    (w : World) : Calm E A w (checkMaster E w) := by
  cases hl : w.load w.node.Master with
  | none => rw [checkMaster_nil E w hl]; exact Calm.calmRefl E A w
  | some dm =>
    cases hm : w.node.Master with
    | none => rw [hm] at hl; simp [World.load] at hl
    | some m =>
      have hq : w.heap[m]? = some dm := by rw [hm] at hl; exact hl
      rw [checkMaster_some E w m dm hm hq, if_pos (hping _ _)]
      have key : ∀ w2 : World, Calm E A w w2 →
          Calm E A w (if (w2.setLastPing E m).stateOf m ≠ some E.ManualDown
              then (w2.setLastPing E m).storeState m E.Up else w2.setLastPing E m) := by
        intro w2 c2
        have c3 := Calm_setLastPing E A w2 m
        split_ifs
        · exact c2.calmTrans (c3.calmTrans (Calm_storeUp E A _ m))
        · exact c2.calmTrans c3
      by_cases hdown : dm.state = E.Down
      · simp only [if_pos hdown]
        apply key
        have c1 : Calm E A w w.step := Calm_of_heap_eq E A rfl
        have c2 := Calm_UpDB E hping A w.step dm.addr
        exact c1.calmTrans (c2.calmTrans (Calm_of_heap_eq E A rfl))
      · simp only [if_neg hdown]
        exact key w.step (Calm_of_heap_eq E A rfl)

theorem cycle_sticky (E : Env) (hping : ∀ t q, E.ping t q = true) (w : World) (p : Nat)
    (A : String) (h : Pinned E w p A) :
    Pinned E (cycle E w).2 p A ∧
      (w.node.Master = some p → (cycle E w).2.node.Master = some p) ∧
      (∀ i, Kept E w i p A → Kept E (cycle E w).2 i p A) := by
  obtain ⟨m1, _, m3, m4⟩ := checkMaster_sticky E hping w p A h
  have mc := checkMaster_calm E hping A w
  unfold cycle CheckSlave
  cases hs : (checkMaster E w).node.Slave with
  | none =>
    refine ⟨m1, m4, fun i hh => ?_⟩
    obtain ⟨ss, e, _⟩ := hh
    rw [m3, e] at hs
    cases hs
  | some ss =>
    simp only []
    obtain ⟨c1, _, c3⟩ := checkSlaves_sticky E hping ss (checkMaster E w) p A m1
    refine ⟨c1, fun e => by rw [c3]; exact m4 e, fun i hh => ?_⟩
    have hh1 : Kept E (checkMaster E w) i p A := Kept_calm mc m3 i p hh
    obtain ⟨ss', e', hi', hall'⟩ := hh1
    rw [hs] at e'
    cases e'
    exact checkSlaves_kept E hping ss (checkMaster E w) i p A m1 ⟨ss, hs, hi', hall'⟩ hall'

theorem cycles_sticky (E : Env) (hping : ∀ t q, E.ping t q = true) (k : Nat) (w : World)
    (p : Nat) (A : String) (h : Pinned E w p A) :
    Pinned E (cycles E k w).2 p A ∧
      (w.node.Master = some p → (cycles E k w).2.node.Master = some p) ∧
      (∀ i, Kept E w i p A → Kept E (cycles E k w).2 i p A) := by
  induction k generalizing w with
  | zero => exact ⟨h, fun e => e, fun _ hh => hh⟩
  | succ k ih =>
    obtain ⟨c1, c2, c3⟩ := cycle_sticky E hping w p A h
    unfold cycles
    generalize cycle E w = r at c1 c2 c3
    obtain ⟨o, w1⟩ := r
    cases o with
    | none => exact ⟨c1, c2, c3⟩
    | some u =>
      obtain ⟨i1, i2, i3⟩ := ih w1 c1
      exact ⟨i1, fun e => i2 (c2 e), fun i hh => i3 i (c3 i hh)⟩

/-! ### Health checks in which the pings of a pool fail -/

theorem tdiv_seconds (T : Int) : Int.tdiv (T * Second) Second = T :=
  Int.mul_tdiv_cancel T (by decide)

theorem seconds_pos (T : Int) (hT : 0 < T) : 0 < T * Second :=
  Int.mul_pos hT (by decide)

theorem scan_none_all (heap : List DB) (P : DB → Bool) (ss : List (Option Nat)) (k : Nat)
    (h : scan heap P ss k = some none) :
    ∀ q, some q ∈ ss → ∃ d : DB, heap[q]? = some d ∧ P d = false := by
  induction ss generalizing k with
  | nil => intro q hq; simp at hq
  | cons s rest ih =>
    cases s with
    | none => simp [scan] at h
    | some r =>
      cases hr : heap[r]? with
      | none => simp [scan, hr] at h
      | some d =>
        simp only [scan, hr] at h
        by_cases hP : P d = true
        · simp [hP] at h
        · simp only [hP, if_false] at h
          intro q hq
          simp only [List.mem_cons, Option.some.injEq] at hq
          rcases hq with e | hm
          · subst e; exact ⟨d, hr, by simpa using hP⟩
          · exact ih _ h q hm

theorem DownSlave_hit (w : World) (st : Int) (i p : Nat) (r : DB) (hp : w.heap[p]? = some r)
    (hheld : Held w i p r.addr) :
    DownSlave w r.addr st = (none, w) ∨
      DownSlave w r.addr st = (some none, w.storeState p st) := by
  obtain ⟨ss, hs, hi, hall⟩ := hheld
  have hmem : some p ∈ ss := List.mem_iff_getElem?.mpr ⟨i, hi⟩
  unfold DownSlave
  rw [hs]
  simp only []
  cases hscan : scan w.heap (fun d => d.addr == r.addr) ss 0 with
  | none => exact Or.inl rfl
  | some m =>
    cases m with
    | none =>
      obtain ⟨d, hd, hP⟩ := scan_none_all _ _ _ _ hscan p hmem
      rw [hp] at hd
      cases hd
      simp at hP
    | some kq =>
      obtain ⟨k, q⟩ := kq
      obtain ⟨j, _, hj, dq, hdq, hP⟩ := scan_some _ _ _ _ _ _ hscan
      have hq : q = p := by
        rcases hall _ (List.mem_iff_getElem?.mpr ⟨j, hj⟩) with h | h | ⟨_, h⟩
        · cases h
        · exact Option.some.inj h
        · simp only [beq_iff_eq] at hP
          simp [World.load, hdq, hP] at h
      subst hq
      exact Or.inr rfl

/-- The master check when the ping of the master fails: the pool is marked `Down` exactly when
the elapsed time, computed in `int64`, is greater than the timeout in seconds. -/
theorem checkMaster_failed (E : Env) (w : World) (p : Nat) (r : DB) (T : Int)
    (hm : w.node.Master = some p) (hp : w.heap[p]? = some r) (hT : 0 < T)
    (hcfg : w.node.DownAfterNoAlive = T * Second) (hping : E.ping w.tick p = false) :
    checkMaster E w =
      if T < sub64 (E.now (w.tick + 1)) r.lastPing then w.step.step.storeState p E.Down
      else w.step.step := by
  rw [checkMaster_some E w p r hm hp, hping, hcfg, tdiv_seconds]
  simp only [Bool.false_eq_true, if_false, if_pos (seconds_pos T hT), gt_iff_lt]
  have : (DownMaster w.step.step r.addr E.Down).2 = w.step.step.storeState p E.Down := by
    simp [DownMaster, hm, hp]
  rw [this]

/-- One iteration of `CheckSlave` when the ping fails: `DownSlave` is called with the address
of the pool exactly when the elapsed time, computed in `int64`, is greater than the timeout. -/
theorem checkSlaveAt_failed (E : Env) (w : World) (p : Nat) (r : DB) (T : Int)
    (hp : w.heap[p]? = some r) (hT : 0 < T) (hcfg : w.node.DownAfterNoAlive = T * Second)
    (hping : E.ping w.tick p = false) :
    checkSlaveAt E w (some p) =
      if T < sub64 (E.now (w.tick + 1)) r.lastPing then
        ((DownSlave w.step.step r.addr E.Down).1.map (fun _ => ()),
          (DownSlave w.step.step r.addr E.Down).2)
      else (some (), w.step.step) := by
  rw [checkSlaveAt_some E w p r hp, hping, hcfg, tdiv_seconds]
  simp only [Bool.false_eq_true, if_false, if_pos (seconds_pos T hT), gt_iff_lt]

/-- The loop of `CheckSlave` over a list and then another. -/
theorem checkSlaves_append (E : Env) (l1 l2 : List (Option Nat)) (w : World) :
    checkSlaves E (l1 ++ l2) w =
      match (checkSlaves E l1 w).1 with
      | none => checkSlaves E l1 w
      | some _ => checkSlaves E l2 (checkSlaves E l1 w).2 := by
  induction l1 generalizing w with
  | nil => rfl
  | cons s rest ih =>
    simp only [List.cons_append, checkSlaves]
    cases hb : checkSlaveAt E w s with
    | mk o w1 =>
      cases o with
      | none => rfl
      | some u => exact ih w1

/-- The loop of `CheckSlave` over entries that are not `p` and do not have its address:
`p`, its slot and the timeout are left as they are. -/
theorem checkSlaves_others (E : Env) (i p : Nat) (l : List (Option Nat)) (w : World) (r : DB)
    (T : Int) (hp : w.heap[p]? = some r) (hheld : Held w i p r.addr)
    (hcfg : w.node.DownAfterNoAlive = T * Second)
    (ho : ∀ s ∈ l, s ≠ some p ∧ Other w p r.addr s) :
    (checkSlaves E l w).2.heap[p]? = some r ∧ Held (checkSlaves E l w).2 i p r.addr ∧
      (checkSlaves E l w).2.node.DownAfterNoAlive = T * Second ∧
      Grow w (checkSlaves E l w).2 := by
  induction l generalizing w with
  | nil => exact ⟨hp, hheld, hcfg, Grow.growRefl w⟩
  | cons s rest ih =>
    obtain ⟨hs, hos⟩ := ho s (by simp)
    obtain ⟨k, h⟩ := checkSlaveAt_other E w s i p r.addr r hp rfl hheld hs hos
    unfold checkSlaves
    generalize checkSlaveAt E w s = b at k h
    obtain ⟨o, w1⟩ := b
    have hp1 : w1.heap[p]? = some r := by rw [k.1, hp]
    have hc1 : w1.node.DownAfterNoAlive = T * Second := by rw [k.2.2.1, hcfg]
    cases o with
    | none => exact ⟨hp1, h, hc1, k.2.1⟩
    | some u =>
      obtain ⟨a1, a2, a3, a4⟩ := ih w1 hp1 h hc1
        (fun s' hs' => ⟨(ho s' (by simp [hs'])).1,
          Other_grow k.2.1 p r.addr s' (ho s' (by simp [hs'])).2⟩)
      exact ⟨a1, a2, a3, k.2.1.growTrans a4⟩

/-- `CheckSlave` on a replica list in which `p` is the only pool with its address, when the
ping of `p` fails: `p` is left as it is when the elapsed time computed is at most `T`, and
is `Down` when it is greater than `T` and the loop went through the check of `p`. -/
theorem checkSlaves_debounce (E : Env) (p : Nat) (pre post : List (Option Nat)) (w : World)
    (r : DB) (T : Int) (hT : 0 < T) (hp : w.heap[p]? = some r)
    (hs : w.node.Slave = some (pre ++ some p :: post))
    (hcfg : w.node.DownAfterNoAlive = T * Second)
    (ho : ∀ s ∈ pre ++ post, s ≠ some p ∧ Other w p r.addr s)
    (hping : E.ping (checkSlaves E pre w).2.tick p = false) :
    (sub64 (E.now ((checkSlaves E pre w).2.tick + 1)) r.lastPing ≤ T →
      (checkSlaves E (pre ++ some p :: post) w).2.heap[p]? = some r) ∧
    (T < sub64 (E.now ((checkSlaves E pre w).2.tick + 1)) r.lastPing →
      (checkSlaves E (pre ++ [some p]) w).1 = some () →
      (checkSlaves E (pre ++ some p :: post) w).2.heap[p]? = some { r with state := E.Down }) := by
  have hi : (pre ++ some p :: post)[pre.length]? = some (some p) := by
    rw [List.getElem?_append_right (le_refl _)]
    simp
  have hall : ∀ s ∈ pre ++ some p :: post, Other w p r.addr s := by
    intro s hs'
    simp only [List.mem_append, List.mem_cons] at hs'
    rcases hs' with h | h | h
    · exact (ho s (by simp [h])).2
    · exact Or.inr (Or.inl h)
    · exact (ho s (by simp [h])).2
  have hheld : Held w pre.length p r.addr := ⟨_, hs, hi, hall⟩
  obtain ⟨p1, h1, c1, g1⟩ := checkSlaves_others E pre.length p pre w r T hp hheld hcfg
    (fun s hs' => ho s (by simp [hs']))
  have hpost : ∀ s ∈ post, s ≠ some p ∧ Other (checkSlaves E pre w).2 p r.addr s :=
    fun s hs' => ⟨(ho s (by simp [hs'])).1, Other_grow g1 p r.addr s (ho s (by simp [hs'])).2⟩
  have hbody := checkSlaveAt_failed E (checkSlaves E pre w).2 p r T p1 hT c1 hping
  have e1 : pre ++ some p :: post = pre ++ ([some p] ++ post) := by simp
  rw [e1, checkSlaves_append E pre ([some p] ++ post) w, checkSlaves_append E pre [some p] w]
  generalize checkSlaves E pre w = b at p1 h1 c1 hpost hbody hping
  obtain ⟨o, w1⟩ := b
  simp only [] at p1 h1 c1 hpost hbody hping ⊢
  have kss : Keeps p w1 w1.step.step := (Keeps_step p w1).keepsTrans (Keeps_step p w1.step)
  have hs2 : Held w1.step.step pre.length p r.addr := Held_grow kss.2.1 rfl pre.length p r.addr h1
  cases o with
  | none => exact ⟨fun _ => p1, fun _ h => by simp at h⟩
  | some u =>
    simp only [List.singleton_append, checkSlaves]
    rw [hbody]
    refine ⟨fun he => ?_, fun hl hdone => ?_⟩
    · rw [if_neg (not_lt.mpr he)]
      simp only []
      exact (checkSlaves_others E pre.length p post w1.step.step r T p1 hs2 c1
        (fun s hs' => ⟨(hpost s hs').1, Other_grow kss.2.1 p r.addr s (hpost s hs').2⟩)).1
    · rw [if_pos hl] at hdone ⊢
      rcases DownSlave_hit w1.step.step E.Down pre.length p r p1 hs2 with e | e
      · rw [e] at hdone; simp at hdone
      · rw [e]
        simp only []
        have g := Grow_storeState w1.step.step p E.Down
        have hr : (w1.step.step.storeState p E.Down).heap[p]? = some { r with state := E.Down } := by
          simp [storeState_heap, p1]
        exact (checkSlaves_others E pre.length p post (w1.step.step.storeState p E.Down)
          { r with state := E.Down } T hr (Held_grow g (by simp) pre.length p r.addr hs2)
          (by simpa using c1)
          (fun s hs' => ⟨(hpost s hs').1,
            Other_grow (kss.2.1.growTrans g) p r.addr s (hpost s hs').2⟩)).1

/-- The `int64` subtraction is the subtraction whenever the difference is an `int64`. -/
theorem sub64_eq_sub (a b : Int) (h1 : -(2 ^ 63) ≤ a - b) (h2 : a - b < 2 ^ 63) :
    sub64 a b = a - b := by
  unfold sub64 wrap64
  have h : (a - b + 2 ^ 63) % 2 ^ 64 = a - b + 2 ^ 63 :=
    Int.emod_eq_of_lt (by omega) (by omega)
  rw [h]
  omega

/-- The elapsed time wraps around as in `int64`: with the last ping at the least `int64` and
the clock at 1793793787 it is negative, and the failed ping leaves the master `Up`. -/
theorem wrapped_elapsed :
    sub64 1793793787 (-(2 ^ 63)) = 1793793787 - 2 ^ 63 ∧
    (checkMaster (envWith true (fun _ _ => false) 1793793787) wrapWorld).stateOf 0
      = some (envWith true (fun _ _ => false) 1793793787).Up := by
  decide

/-! ### The states that `node.go` can reach -/

theorem Tidy_heap (E : Env) {w w' : World} (h : Tidy E w) (hs : slotsOf w' = slotsOf w)
    (hm : w'.node.Master = w.node.Master) (hl : w.heap.length ≤ w'.heap.length)
    (hold : ∀ q d', some q ∈ slotsOf w → w'.heap[q]? = some d' →
      ∃ d, w.heap[q]? = some d ∧ d.addr = d'.addr ∧ (Marked E d' → Marked E d)) :
    Tidy E w' where
  valid := fun q hq => lt_of_lt_of_le (h.valid q (hs ▸ hq)) hl
  master := fun m hmm =>
    ⟨lt_of_lt_of_le (h.master m (hm ▸ hmm)).1 hl, by rw [hs]; exact (h.master m (hm ▸ hmm)).2⟩
  distinct := by rw [hs]; exact h.distinct
  first := by
    rw [hs]
    intro i j q' q d' d hij hi hj hd' hd hmk
    obtain ⟨e', he', ha', _⟩ := hold q' d' (List.getElem?_mem hi) hd'
    obtain ⟨e, he, ha, hmk0⟩ := hold q d (List.getElem?_mem hj) hd
    have := h.first i j q' q e' e hij hi hj he' he (hmk0 hmk)
    rw [ha', ha] at this
    exact this

theorem storeState_length (w : World) (p : Nat) (s : Int) :
    (w.storeState p s).heap.length = w.heap.length := by
  unfold World.storeState
  split
  · rfl
  · simp

theorem slotsOf_storeState (w : World) (p : Nat) (s : Int) :
    slotsOf (w.storeState p s) = slotsOf w := by
  unfold slotsOf
  rw [storeState_node]

theorem Tidy_mark (E : Env) {w : World} (h : Tidy E w) (j q : Nat) (d : DB) (st : Int)
    (hj : (slotsOf w)[j]? = some (some q)) (hq : w.heap[q]? = some d)
    (hfirst : ∀ i q' d', i < j → (slotsOf w)[i]? = some (some q') → w.heap[q']? = some d' →
      d'.addr ≠ d.addr) :
    Tidy E (w.storeState q st) where
  valid := by
    rw [slotsOf_storeState, storeState_length]; exact h.valid
  master := by
    rw [slotsOf_storeState, storeState_length, storeState_node]; exact h.master
  distinct := by rw [slotsOf_storeState]; exact h.distinct
  first := by
    rw [slotsOf_storeState]
    intro i j1 q1' q1 d1' d1 hij hi hj1 hd' hd hmk
    rw [storeState_heap] at hd' hd
    by_cases e : q1 = q
    · subst e
      have ej : j1 = j := h.distinct j1 j q1 hj1 hj
      subst ej
      have ne : q1' ≠ q1 := fun e2 => by
        subst e2
        have := h.distinct i j1 q1' hi hj1
        omega
      rw [if_neg ne] at hd'
      rw [if_pos rfl, hq] at hd
      simp only [Option.map_some', Option.some.injEq] at hd
      subst hd
      exact hfirst i q1' d1' hij hi hd'
    · rw [if_neg e] at hd
      by_cases e' : q1' = q
      · subst e'
        rw [if_pos rfl, hq] at hd'
        simp only [Option.map_some', Option.some.injEq] at hd'
        subst hd'
        exact h.first i j1 q1' q1 d d1 hij hi hj1 hq hd hmk
      · rw [if_neg e'] at hd'
        exact h.first i j1 q1' q1 d1' d1 hij hi hj1 hd' hd hmk

theorem Tidy_of_eq (E : Env) {w w' : World} (h : Tidy E w) (hh : w'.heap = w.heap)
    (hm : w'.node.Master = w.node.Master) (hs : w'.node.Slave = w.node.Slave) : Tidy E w' :=
  Tidy_heap E h (by unfold slotsOf; rw [hs]) hm (by rw [hh])
    (fun q d' _ hd => ⟨d', by rw [← hh]; exact hd, rfl, fun m => m⟩)

theorem Tidy_master (E : Env) {w : World} (h : Tidy E w) (x : Option Nat)
    (hx : ∀ p : Nat, x = some p → p < w.heap.length ∧ some p ∉ slotsOf w) :
    Tidy E { w with node := { w.node with Master := x } } where
  valid := h.valid
  master := fun m hm => hx m hm
  distinct := h.distinct
  first := h.first

theorem Tidy_set (E : Env) {w : World} (h : Tidy E w) (a : String) (x : Option Nat)
    (hx : Fresh E w a x) (k q0 : Nat) (d0 : DB) (hk : (slotsOf w)[k]? = some (some q0))
    (h0 : w.heap[q0]? = some d0) (ha : d0.addr = a) :
    Tidy E { w with node := { w.node with Slave := some ((slotsOf w).set k x) } } where
  valid := by
    intro q hq
    have hq' : some q ∈ (slotsOf w).set k x := hq
    rcases List.mem_or_eq_of_mem_set hq' with hm | hm
    · exact h.valid q hm
    · obtain ⟨_, _, d, hd, _⟩ := hx q hm.symm
      exact (List.getElem?_eq_some_iff.mp hd).1
  master := by
    intro m hm
    have hm' : w.node.Master = some m := hm
    refine ⟨(h.master m hm').1, fun hin => ?_⟩
    have hin' : some m ∈ (slotsOf w).set k x := hin
    rcases List.mem_or_eq_of_mem_set hin' with hmem | hmem
    · exact (h.master m hm').2 hmem
    · exact (hx m hmem.symm).2.1 hm'
  distinct := by
    intro i j q hi hj
    have hi' : ((slotsOf w).set k x)[i]? = some (some q) := hi
    have hj' : ((slotsOf w).set k x)[j]? = some (some q) := hj
    rw [List.getElem?_set] at hi' hj'
    by_cases ei : k = i
    · by_cases ej : k = j
      · omega
      · rw [if_neg ej] at hj'
        rw [if_pos ei] at hi'
        split at hi'
        · exact absurd (List.getElem?_mem hj') ((hx q (Option.some.inj hi')).1)
        · simp at hi'
    · rw [if_neg ei] at hi'
      by_cases ej : k = j
      · rw [if_pos ej] at hj'
        split at hj'
        · exact absurd (List.getElem?_mem hi') ((hx q (Option.some.inj hj')).1)
        · simp at hj'
      · rw [if_neg ej] at hj'
        exact h.distinct i j q hi' hj'
  first := by
    intro i j q' q d' d hij hi hj hd' hd hmk
    have hi' : ((slotsOf w).set k x)[i]? = some (some q') := hi
    have hj' : ((slotsOf w).set k x)[j]? = some (some q) := hj
    have hd1' : w.heap[q']? = some d' := hd'
    have hd1 : w.heap[q]? = some d := hd
    rw [List.getElem?_set] at hi' hj'
    by_cases ej : k = j
    · rw [if_pos ej] at hj'
      split at hj'
      · obtain ⟨_, _, dq, hdq, _, hn⟩ := hx q (Option.some.inj hj')
        rw [hd1] at hdq
        cases hdq
        exact absurd hmk hn
      · simp at hj'
    · rw [if_neg ej] at hj'
      by_cases ei : k = i
      · rw [if_pos ei] at hi'
        split at hi'
        · obtain ⟨_, _, dq, hdq, hda, _⟩ := hx q' (Option.some.inj hi')
          rw [hd1'] at hdq
          cases hdq
          have := h.first k j q0 q d0 d (by omega) hk hj' h0 hd1 hmk
          rw [hda, ← ha]
          exact this
        · simp at hi'
      · rw [if_neg ei] at hi'
        exact h.first i j q' q d' d hij hi' hj' hd1' hd1 hmk

theorem Tidy_append (E : Env) {w : World} (h : Tidy E w) (a : String) (x : Option Nat)
    (hx : Fresh E w a x) :
    Tidy E { w with node := { w.node with Slave := some (slotsOf w ++ [x]) } } where
  valid := by
    intro q hq
    have hq' : some q ∈ slotsOf w ++ [x] := hq
    rcases List.mem_append.mp hq' with hm | hm
    · exact h.valid q hm
    · obtain ⟨_, _, d, hd, _⟩ := hx q (List.mem_singleton.mp hm).symm
      exact (List.getElem?_eq_some_iff.mp hd).1
  master := by
    intro m hm
    have hm' : w.node.Master = some m := hm
    refine ⟨(h.master m hm').1, fun hin => ?_⟩
    have hin' : some m ∈ slotsOf w ++ [x] := hin
    rcases List.mem_append.mp hin' with hmem | hmem
    · exact (h.master m hm').2 hmem
    · exact (hx m (List.mem_singleton.mp hmem).symm).2.1 hm'
  distinct := by
    intro i j q hi hj
    have hi' : (slotsOf w ++ [x])[i]? = some (some q) := hi
    have hj' : (slotsOf w ++ [x])[j]? = some (some q) := hj
    rw [List.getElem?_append] at hi' hj'
    by_cases ei : i < (slotsOf w).length
    · rw [if_pos ei] at hi'
      by_cases ej : j < (slotsOf w).length
      · rw [if_pos ej] at hj'
        exact h.distinct i j q hi' hj'
      · rw [if_neg ej] at hj'
        have hxq : x = some q := (List.mem_singleton.mp (List.getElem?_mem hj')).symm
        exact absurd (List.getElem?_mem hi') (hx q hxq).1
    · rw [if_neg ei] at hi'
      have hxq : x = some q := (List.mem_singleton.mp (List.getElem?_mem hi')).symm
      by_cases ej : j < (slotsOf w).length
      · rw [if_pos ej] at hj'
        exact absurd (List.getElem?_mem hj') (hx q hxq).1
      · rw [if_neg ej] at hj'
        have l1 := (List.getElem?_eq_some_iff.mp hi').1
        have l2 := (List.getElem?_eq_some_iff.mp hj').1
        simp only [List.length_singleton] at l1 l2
        omega
  first := by
    intro i j q' q d' d hij hi hj hd' hd hmk
    have hi' : (slotsOf w ++ [x])[i]? = some (some q') := hi
    have hj' : (slotsOf w ++ [x])[j]? = some (some q) := hj
    have hd1' : w.heap[q']? = some d' := hd'
    have hd1 : w.heap[q]? = some d := hd
    rw [List.getElem?_append] at hi' hj'
    by_cases ej : j < (slotsOf w).length
    · rw [if_pos ej] at hj'
      rw [if_pos (by omega)] at hi'
      exact h.first i j q' q d' d hij hi' hj' hd1' hd1 hmk
    · rw [if_neg ej] at hj'
      have hxq : x = some q := (List.mem_singleton.mp (List.getElem?_mem hj')).symm
      obtain ⟨_, _, dq, hdq, _, hn⟩ := hx q hxq
      rw [hd1] at hdq
      cases hdq
      exact absurd hmk hn

theorem Tidy_consts {E E' : Env} (hc : SameConsts E E') {w : World} (h : Tidy E w) :
    Tidy E' w where
  valid := h.valid
  master := h.master
  distinct := h.distinct
  first := by
    intro i j q' q d' d hij hi hj hd' hd hmk
    refine h.first i j q' q d' d hij hi hj hd' hd ?_
    unfold Marked at hmk ⊢
    rw [hc.2.1, hc.2.2] at hmk
    exact hmk

theorem SameConsts.symmConsts {E E' : Env} (hc : SameConsts E E') : SameConsts E' E :=
  ⟨hc.1.symm, hc.2.1.symm, hc.2.2.symm⟩

theorem Tidy_step (E : Env) {w : World} (h : Tidy E w) : Tidy E w.step :=
  Tidy_of_eq E h rfl rfl rfl

theorem Tidy_storeUnmarked (E : Env) {w : World} (h : Tidy E w) (p : Nat) (st : Int)
    (hst : st ≠ E.Down ∧ st ≠ E.ManualDown) : Tidy E (w.storeState p st) := by
  refine Tidy_heap E h (slotsOf_storeState w p st) (by simp) (by rw [storeState_length]) ?_
  intro q d' _ hd
  rw [storeState_heap] at hd
  by_cases e : q = p
  · rw [if_pos e] at hd
    cases hq : w.heap[q]? with
    | none => simp [hq] at hd
    | some d =>
      simp only [hq, Option.map_some', Option.some.injEq] at hd
      subst hd
      refine ⟨d, rfl, rfl, fun hm => ?_⟩
      rcases hm with hm | hm
      · exact absurd hm hst.1
      · exact absurd hm hst.2
  · rw [if_neg e] at hd
    exact ⟨d', hd, rfl, fun m => m⟩

theorem Tidy_storeOutside (E : Env) {w : World} (h : Tidy E w) (p : Nat) (st : Int)
    (hp : some p ∉ slotsOf w) : Tidy E (w.storeState p st) := by
  refine Tidy_heap E h (slotsOf_storeState w p st) (by simp) (by rw [storeState_length]) ?_
  intro q d' hq hd
  rw [storeState_heap] at hd
  have e : q ≠ p := fun e => hp (e ▸ hq)
  rw [if_neg e] at hd
  exact ⟨d', hd, rfl, fun m => m⟩

theorem Tidy_setLastPing (E E' : Env) {w : World} (h : Tidy E w) (p : Nat) :
    Tidy E (w.setLastPing E' p) := by
  have hl : (w.setLastPing E' p).heap.length = w.heap.length := by
    unfold World.setLastPing
    split
    · rfl
    · simp
  refine Tidy_heap E h (by unfold slotsOf; rw [setLastPing_node])
    (by rw [setLastPing_node]) (by rw [hl]) ?_
  intro q d' _ hd
  rw [setLastPing_heap] at hd
  by_cases e : q = p
  · rw [if_pos e] at hd
    cases hq : w.heap[q]? with
    | none => simp [hq] at hd
    | some d =>
      simp only [hq, Option.map_some', Option.some.injEq] at hd
      subst hd
      exact ⟨d, rfl, rfl, fun m => m⟩
  · rw [if_neg e] at hd
    exact ⟨d', hd, rfl, fun m => m⟩

theorem OpenDB_length (E : Env) (w : World) (a : String) :
    w.heap.length ≤ (OpenDB E w a).2.heap.length := by
  unfold OpenDB
  split
  · exact le_refl _
  · simp

theorem Tidy_OpenDB (E E' : Env) {w : World} (h : Tidy E w) (a : String) :
    Tidy E (OpenDB E' w a).2 := by
  refine Tidy_heap E h (by unfold slotsOf; rw [OpenDB_node]) (by rw [OpenDB_node])
    (OpenDB_length E' w a) ?_
  intro q d' hq hd
  have hv := h.valid q hq
  obtain ⟨d, hd0⟩ : ∃ d, w.heap[q]? = some d := ⟨w.heap[q], List.getElem?_eq_getElem hv⟩
  rw [OpenDB_old E' w a q d hd0] at hd
  exact ⟨d', by rw [hd0, hd], rfl, fun m => m⟩

/-- A pool allocated after the node was tidy is in no slot and is not the master. -/
theorem Fresh_of_new (E : Env) (w0 w : World) (h : Tidy E w0) (hs : slotsOf w = slotsOf w0)
    (hm : w.node.Master = w0.node.Master) (a : String) (p : Nat) (d : DB)
    (hp : w0.heap.length ≤ p) (hd : w.heap[p]? = some d) (ha : d.addr = a)
    (hn : ¬ Marked E d) : Fresh E w a (some p) := by
  intro p' e
  cases e
  refine ⟨fun hin => ?_, fun hmm => ?_, d, hd, ha, hn⟩
  · have := h.valid p (hs ▸ hin)
    omega
  · have := (h.master p (hm ▸ hmm)).1
    omega

theorem Fresh_none (E : Env) (w : World) (a : String) : Fresh E w a none := by
  intro p e
  cases e

theorem OpenDB_fresh (E : Env) (ho : OpensUnmarked E) {w : World} (h : Tidy E w) (a : String) :
    Fresh E (OpenDB E w a).2 a (OpenDB E w a).1 := by
  unfold OpenDB
  cases ho' : E.openDB w.tick a with
  | none => exact Fresh_none E _ a
  | some sl =>
    obtain ⟨st, lp⟩ := sl
    refine Fresh_of_new E w
      { w with heap := w.heap ++ [{ addr := a, state := st, lastPing := lp }],
               tick := w.tick + 1 } h rfl rfl a w.heap.length ⟨a, st, lp⟩ (le_refl _)
      (List.getElem?_concat_length _ _) rfl ?_
    intro hm
    rcases hm with hm | hm
    · exact (ho _ _ _ _ ho').1 hm
    · exact (ho _ _ _ _ ho').2 hm

theorem UpDB_tidy (E : Env) {w : World} (h : Tidy E w) (a : String) :
    Tidy E (UpDB E w a).2 ∧ Fresh E (UpDB E w a).2 a (UpDB E w a).1.1 := by
  have h1 := Tidy_OpenDB E E h a
  have hn := OpenDB_node E w a
  have hptr := OpenDB_ptr E w a
  unfold UpDB
  generalize OpenDB E w a = r at h1 hn hptr
  obtain ⟨o, w1⟩ := r
  cases o with
  | none => exact ⟨h1, Fresh_none E _ a⟩
  | some p =>
    obtain ⟨hp, d, hd, ha⟩ := hptr p rfl
    simp only [] at h1 hn hd ⊢
    have hout : some p ∉ slotsOf w1.step := by
      intro hin
      have hin' : some p ∈ slotsOf w := by
        unfold slotsOf at hin ⊢
        rw [step_node, hn] at hin
        exact hin
      have := h.valid p hin'
      omega
    by_cases hping : E.ping w1.tick p = true
    · rw [if_pos hping]
      refine ⟨Tidy_storeOutside E (Tidy_step E h1) p E.Up hout, ?_⟩
      refine Fresh_of_new E w _ h (by rw [slotsOf_storeState]; unfold slotsOf; rw [step_node, hn])
        (by rw [storeState_node, step_node, hn]) a p { d with state := E.Up } (by omega)
        (by rw [storeState_heap, if_pos rfl, step_heap, hd]; rfl) ha ?_
      intro hm
      rcases hm with hm | hm
      · exact E.up_ne_down hm
      · exact E.up_ne_manual hm
    · rw [if_neg hping]
      exact ⟨Tidy_storeOutside E (Tidy_step E h1) p E.Down hout, Fresh_none E _ a⟩

theorem scan_first (heap : List DB) (P : DB → Bool) (ss : List (Option Nat)) (k0 k q : Nat)
    (h : scan heap P ss k0 = some (some (k, q))) :
    ∃ j, k = k0 + j ∧ ss[j]? = some (some q) ∧ (∃ d : DB, heap[q]? = some d ∧ P d = true) ∧
      ∀ (i q' : Nat) (d' : DB), i < j → ss[i]? = some (some q') → heap[q']? = some d' →
        P d' = false := by
  induction ss generalizing k0 with
  | nil => simp [scan] at h
  | cons s rest ih =>
    cases s with
    | none => simp [scan] at h
    | some r =>
      cases hr : heap[r]? with
      | none => simp [scan, hr] at h
      | some d =>
        simp only [scan, hr] at h
        by_cases hP : P d = true
        · simp only [hP, if_true, Option.some.injEq, Prod.mk.injEq] at h
          obtain ⟨h1, h2⟩ := h
          subst h1 h2
          exact ⟨0, rfl, by simp, ⟨d, hr, hP⟩, fun i _ _ hi => absurd hi (by omega)⟩
        · simp only [hP, if_false] at h
          obtain ⟨j, e, hj, hd, hmin⟩ := ih (k0 + 1) h
          refine ⟨j + 1, by omega, by simpa using hj, hd, ?_⟩
          intro i q' d' hi hs hq'
          cases i with
          | zero =>
            simp only [List.getElem?_cons_zero, Option.some.injEq] at hs
            subst hs
            rw [hr] at hq'
            cases hq'
            simpa using hP
          | succ i =>
            exact hmin i q' d' (by omega) (by simpa using hs) hq'

theorem UpMaster_tidy (E : Env) {w : World} (h : Tidy E w) (a : String) :
    Tidy E (UpMaster E w a).2 := by
  obtain ⟨h1, h2⟩ := UpDB_tidy E h a
  refine Tidy_master E h1 _ (fun p e => ?_)
  obtain ⟨k1, _, d, hd, _⟩ := h2 p e
  exact ⟨(List.getElem?_eq_some_iff.mp hd).1, k1⟩

theorem UpSlave_tidy (E : Env) {w : World} (h : Tidy E w) (a : String) :
    Tidy E (UpSlave E w a).2 := by
  obtain ⟨h1, h2⟩ := UpDB_tidy E h a
  unfold UpSlave
  generalize UpDB E w a = r at h1 h2
  simp only []
  cases hscan : scan r.2.heap (fun d => d.addr == a) (r.2.node.Slave.getD []) 0 with
  | none => exact h1
  | some m =>
    cases m with
    | none => exact Tidy_append E h1 a _ h2
    | some kq =>
      obtain ⟨k, q⟩ := kq
      obtain ⟨j, e, hj, ⟨d, hd, hP⟩, _⟩ := scan_first _ _ _ _ _ _ hscan
      have ek : k = j := by omega
      subst ek
      exact Tidy_set E h1 a _ h2 k q d hj hd (by simpa using hP)

theorem DownMaster_tidy (E : Env) {w : World} (h : Tidy E w) (a : String) (st : Int) :
    Tidy E (DownMaster w a st).2 := by
  unfold DownMaster
  cases hm : w.node.Master with
  | none => exact h
  | some p =>
    simp only []
    cases hp : w.heap[p]? with
    | none => exact h
    | some db =>
      simp only []
      split_ifs
      · exact h
      · exact Tidy_storeOutside E h p st (h.master p hm).2

theorem DownSlave_tidy (E : Env) {w : World} (h : Tidy E w) (a : String) (st : Int) :
    Tidy E (DownSlave w a st).2 := by
  unfold DownSlave
  cases hs : w.node.Slave with
  | none => exact h
  | some slaves =>
    have e : slotsOf w = slaves := by unfold slotsOf; rw [hs]; rfl
    simp only []
    cases hscan : scan w.heap (fun d => d.addr == a) slaves 0 with
    | none => exact h
    | some m =>
      cases m with
      | none => exact h
      | some kq =>
        obtain ⟨k, q⟩ := kq
        obtain ⟨j, _, hj, ⟨d, hd, hP⟩, hmin⟩ := scan_first _ _ _ _ _ _ hscan
        have ha : d.addr = a := by simpa using hP
        refine Tidy_mark E h j q d st (e ▸ hj) hd ?_
        intro i q' d' hi hs' hq'
        have := hmin i q' d' hi (e ▸ hs') hq'
        rw [ha]
        simpa using this

theorem unmarked_up (E : Env) : E.Up ≠ E.Down ∧ E.Up ≠ E.ManualDown :=
  ⟨E.up_ne_down, E.up_ne_manual⟩

theorem checkMaster_tidy (E : Env) {w : World} (h : Tidy E w) : Tidy E (checkMaster E w) := by
  cases hm : w.node.Master with
  | none => simp only [checkMaster, hm]; exact h
  | some p =>
    cases hp : w.heap[p]? with
    | none => simp only [checkMaster, hm, hp]; exact h
    | some db =>
      rw [checkMaster_some E w p db hm hp]
      have h1 := Tidy_step E h
      split_ifs
      · exact Tidy_storeUnmarked E (Tidy_setLastPing E E (UpMaster_tidy E h1 _) p) p E.Up
          (unmarked_up E)
      · exact Tidy_setLastPing E E (UpMaster_tidy E h1 _) p
      · exact Tidy_storeUnmarked E (Tidy_setLastPing E E h1 p) p E.Up (unmarked_up E)
      · exact Tidy_setLastPing E E h1 p
      · exact DownMaster_tidy E (Tidy_step E h1) _ _
      · exact Tidy_step E h1
      · exact h1

/-- Storing `Up` after the time of the ping, unless the pool is `ManualDown`. -/
theorem Tidy_tail (E : Env) {w : World} (h : Tidy E w) (p : Nat) :
    Tidy E (if (w.setLastPing E p).stateOf p ≠ some E.ManualDown
      then (w.setLastPing E p).storeState p E.Up else w.setLastPing E p) := by
  split_ifs
  · exact Tidy_storeUnmarked E (Tidy_setLastPing E E h p) p E.Up (unmarked_up E)
  · exact Tidy_setLastPing E E h p

theorem checkSlaveAt_tidy (E : Env) {w : World} (h : Tidy E w) (s : Option Nat) :
    Tidy E (checkSlaveAt E w s).2 := by
  cases hl : w.load s with
  | none => rw [checkSlaveAt_nil E w s hl]; exact h
  | some db =>
    cases s with
    | none => simp [World.load] at hl
    | some p =>
      have hp : w.heap[p]? = some db := hl
      rw [checkSlaveAt_some E w p db hp]
      have h1 := Tidy_step E h
      have hu := UpSlave_tidy E h1 db.addr
      by_cases hping : E.ping w.tick p = true
      · rw [if_pos hping]
        by_cases hd : db.state = E.Down
        · rw [if_pos hd]
          cases (UpSlave E w.step db.addr).1 with
          | none => exact hu
          | some e => exact Tidy_tail E hu p
        · rw [if_neg hd]
          exact Tidy_tail E h1 p
      · rw [if_neg hping]
        by_cases hc : 0 < w.node.DownAfterNoAlive
        · rw [if_pos hc]
          by_cases hlate : sub64 (E.now (w.tick + 1)) db.lastPing
              > Int.tdiv w.node.DownAfterNoAlive Second
          · rw [if_pos hlate]
            exact DownSlave_tidy E (Tidy_step E h1) _ _
          · rw [if_neg hlate]
            exact Tidy_step E h1
        · rw [if_neg hc]
          exact h1

theorem checkSlaves_tidy (E : Env) (l : List (Option Nat)) {w : World} (h : Tidy E w) :
    Tidy E (checkSlaves E l w).2 := by
  induction l generalizing w with
  | nil => exact h
  | cons s rest ih =>
    have h1 := checkSlaveAt_tidy E h s
    unfold checkSlaves
    generalize checkSlaveAt E w s = b at h1
    obtain ⟨o, w1⟩ := b
    cases o with
    | none => exact h1
    | some u => exact ih h1

theorem CheckSlave_tidy (E : Env) {w : World} (h : Tidy E w) : Tidy E (CheckSlave E w).2 := by
  unfold CheckSlave
  cases w.node.Slave with
  | none => exact h
  | some slaves => exact checkSlaves_tidy E slaves h

theorem appendSlave_tidy (E : Env) (ho : OpensUnmarked E) {w : World} (h : Tidy E w)
    (parts : List String) : Tidy E (appendSlave E w parts).2 := by
  unfold appendSlave
  cases weightOf parts with
  | none => exact h
  | some weight =>
    simp only []
    have h0 : Tidy E { w with node := { w.node with
        SlaveWeights := w.node.SlaveWeights ++ [weight] } } := Tidy_of_eq E h rfl rfl rfl
    have h1 := Tidy_OpenDB E E h0 (parts.headD "")
    have h2 := OpenDB_fresh E ho h0 (parts.headD "")
    generalize OpenDB E { w with node := { w.node with
        SlaveWeights := w.node.SlaveWeights ++ [weight] } } (parts.headD "") = r at h1 h2
    obtain ⟨o, w2⟩ := r
    cases o with
    | none => exact h1
    | some p => exact Tidy_append E h1 _ _ h2

theorem InitBalancer_tidy (E E' : Env) {w : World} (h : Tidy E w) :
    Tidy E (InitBalancer E' w) :=
  Tidy_of_eq E h rfl rfl rfl

theorem parseSlaves_tidy (E : Env) (ho : OpensUnmarked E) (l : List String) {w : World}
    (h : Tidy E w) : Tidy E (parseSlaves E l w).2 := by
  induction l generalizing w with
  | nil => exact InitBalancer_tidy E E h
  | cons s rest ih =>
    have h1 := appendSlave_tidy E ho h (Split s WeightSplit)
    unfold parseSlaves
    generalize appendSlave E w (Split s WeightSplit) = b at h1
    obtain ⟨o, w1⟩ := b
    cases o with
    | none => exact ih h1
    | some e => exact h1

theorem ParseSlave_tidy (E : Env) (ho : OpensUnmarked E) {w : World} (h : Tidy E w)
    (s : String) : Tidy E (ParseSlave E w s).2 := by
  unfold ParseSlave
  split_ifs
  · exact h
  · refine parseSlaves_tidy E ho _ ?_
    exact {
      valid := fun q hq => by simp [slotsOf] at hq
      master := fun m hm => ⟨(h.master m hm).1, by simp [slotsOf]⟩
      distinct := fun i j q hi => by simp [slotsOf] at hi
      first := fun i j q' q d' d _ hi => by simp [slotsOf] at hi }

theorem AddSlave_tidy (E : Env) (ho : OpensUnmarked E) {w : World} (h : Tidy E w)
    (a : String) : Tidy E (AddSlave E w a).2 := by
  unfold AddSlave
  split_ifs
  · exact h
  · cases scan w.heap
        (fun v => (Split v.addr WeightSplit).headD "" == (Split a WeightSplit).headD "")
        (w.node.Slave.getD []) 0 with
    | none => exact h
    | some m =>
      cases m with
      | some kq => exact h
      | none =>
        have h1 := appendSlave_tidy E ho h (Split a WeightSplit)
        simp only []
        generalize appendSlave E w (Split a WeightSplit) = b at h1
        obtain ⟨o, w1⟩ := b
        cases o with
        | none => exact InitBalancer_tidy E E h1
        | some e => exact h1

theorem ParseMaster_tidy (E E' : Env) {w : World} (h : Tidy E w) (s : String) :
    Tidy E (ParseMaster E' w s).2 := by
  unfold ParseMaster
  split_ifs
  · exact h
  · have h1 := Tidy_OpenDB E E' h s
    have hn := OpenDB_node E' w s
    have hptr := OpenDB_ptr E' w s
    generalize OpenDB E' w s = r at h1 hn hptr
    obtain ⟨o, w1⟩ := r
    cases o with
    | none => exact Tidy_master E h1 none (fun p e => by cases e)
    | some p =>
      refine Tidy_master E h1 (some p) (fun p' e => ?_)
      cases e
      obtain ⟨hp, d, hd, _⟩ := hptr p rfl
      refine ⟨(List.getElem?_eq_some_iff.mp hd).1, fun hin => ?_⟩
      have hin' : some p ∈ slotsOf w := by
        unfold slotsOf at hin ⊢
        rw [← hn]
        exact hin
      have := h.valid p hin'
      omega

/-- Every reachable state is tidy. -/
theorem Reachable_tidy (E : Env) {w : World} (h : Reachable E w) : Tidy E w := by
  induction h with
  | init w hm hs =>
    exact {
      valid := fun q hq => by simp [slotsOf, hs] at hq
      master := fun m hmm => by rw [hm] at hmm; cases hmm
      distinct := fun i j q hi => by simp [slotsOf, hs] at hi
      first := fun i j q' q d' d _ hi => by simp [slotsOf, hs] at hi }
  | same w w' _ hh hm hs ih => exact Tidy_of_eq E ih hh hm hs
  | openDB E' w a _ ih => exact Tidy_OpenDB E E' ih a
  | upDB E' hc w a _ ih =>
    exact Tidy_consts hc.symmConsts (UpDB_tidy E' (Tidy_consts hc ih) a).1
  | parseMaster E' w s _ ih => exact ParseMaster_tidy E E' ih s
  | parseSlave E' hc ho w s _ ih =>
    exact Tidy_consts hc.symmConsts (ParseSlave_tidy E' ho (Tidy_consts hc ih) s)
  | addSlave E' hc ho w a _ ih =>
    exact Tidy_consts hc.symmConsts (AddSlave_tidy E' ho (Tidy_consts hc ih) a)
  | upMaster E' hc w a _ ih =>
    exact Tidy_consts hc.symmConsts (UpMaster_tidy E' (Tidy_consts hc ih) a)
  | upSlave E' hc w a _ ih =>
    exact Tidy_consts hc.symmConsts (UpSlave_tidy E' (Tidy_consts hc ih) a)
  | downMaster w a st _ ih => exact DownMaster_tidy E ih a st
  | downSlave w a st _ ih => exact DownSlave_tidy E ih a st
  | checkMaster E' hc w _ ih =>
    exact Tidy_consts hc.symmConsts (checkMaster_tidy E' (Tidy_consts hc ih))
  | checkSlave E' hc w _ ih =>
    exact Tidy_consts hc.symmConsts (CheckSlave_tidy E' (Tidy_consts hc ih))
  | checkSlaveAt E' hc w s _ ih =>
    exact Tidy_consts hc.symmConsts (checkSlaveAt_tidy E' (Tidy_consts hc ih) s)

/-- In a tidy node, a replica in state `ManualDown` has no `Down` replica with its address. -/
theorem Tidy_twinless (E : Env) {w : World} (h : Tidy E w) (slaves : List (Option Nat))
    (i p : Nat) (d : DB) (hs : w.node.Slave = some slaves) (hi : slaves[i]? = some (some p))
    (hp : w.heap[p]? = some d) (hmd : d.state = E.ManualDown) :
    ∀ s ∈ slaves, Twinless E w d.addr s := by
  have e : slotsOf w = slaves := by unfold slotsOf; rw [hs]; rfl
  intro s hmem
  obtain ⟨j, hj⟩ := List.mem_iff_getElem?.mp hmem
  unfold Twinless
  cases s with
  | none => simp [World.load]
  | some q =>
    cases hq : w.heap[q]? with
    | none => simp [World.load, hq]
    | some dq =>
      simp only [World.load, hq, Option.map_some', ne_eq, Option.some.injEq, Prod.mk.injEq,
        not_and]
      intro ha hst
      rcases Nat.lt_trichotomy i j with hlt | heq | hgt
      · exact h.first i j p q d dq hlt (e ▸ hi) (e ▸ hj) hp hq (Or.inl hst) ha.symm
      · subst heq
        rw [hi] at hj
        cases hj
        rw [hp] at hq
        cases hq
        exact E.down_ne_manual (hst.symm.trans hmd)
      · exact h.first j i q p dq d hgt (e ▸ hj) (e ▸ hi) hq hp (Or.inr hmd) ha

theorem Whole_grow {w w' : World} (hg : Grow w w') (l : List (Option Nat)) (h : Whole w l) :
    Whole w' l := by
  intro s hs
  have := h s hs
  cases s with
  | none => simp [World.load] at this
  | some q =>
    cases hq : w.heap[q]? with
    | none => simp [World.load, hq] at this
    | some d =>
      obtain ⟨d', hd', _⟩ := hg q d hq
      simp [World.load, hd']

theorem scan_total (heap : List DB) (P : DB → Bool) (ss : List (Option Nat)) (k : Nat)
    (h : ∀ s ∈ ss, ∃ q d, s = some q ∧ heap[q]? = some d) :
    scan heap P ss k ≠ none := by
  induction ss generalizing k with
  | nil => simp [scan]
  | cons s rest ih =>
    obtain ⟨q, d, e, hq⟩ := h s (by simp)
    subst e
    simp only [scan, hq]
    split_ifs
    · simp
    · exact ih (k + 1) (fun s hs => h s (by simp [hs]))

theorem Whole_iff (w : World) (l : List (Option Nat)) (h : Whole w l) :
    ∀ s ∈ l, ∃ q d, s = some q ∧ w.heap[q]? = some d := by
  intro s hs
  have := h s hs
  cases s with
  | none => simp [World.load] at this
  | some q =>
    cases hq : w.heap[q]? with
    | none => simp [World.load, hq] at this
    | some d => exact ⟨q, d, rfl, hq⟩

theorem UpDB_opened (E : Env) (hping : ∀ t q, E.ping t q = true)
    (hopen : ∀ t a, (E.openDB t a).isSome = true) (w : World) (a : String) :
    ∃ p d, (UpDB E w a).1.1 = some p ∧ (UpDB E w a).2.heap[p]? = some d := by
  unfold UpDB OpenDB
  have ho := hopen w.tick a
  cases hopn : E.openDB w.tick a with
  | none => simp [hopn] at ho
  | some sl =>
    obtain ⟨st, lp⟩ := sl
    simp only [hping, if_true]
    refine ⟨w.heap.length, ⟨a, E.Up, lp⟩, rfl, ?_⟩
    rw [storeState_heap, if_pos rfl]
    simp

theorem UpSlave_total (E : Env) (hping : ∀ t q, E.ping t q = true)
    (hopen : ∀ t a, (E.openDB t a).isSome = true) (w : World) (a : String)
    (h : Whole w (slotsOf w)) :
    (UpSlave E w a).1 ≠ none ∧ Whole (UpSlave E w a).2 (slotsOf (UpSlave E w a).2) := by
  obtain ⟨p, d, hr, hd⟩ := UpDB_opened E hping hopen w a
  have hg : Grow w (UpDB E w a).2 := fun q d' hq => ⟨d', UpDB_old E w a q d' hq, rfl⟩
  have h1 : Whole (UpDB E w a).2 (slotsOf (UpDB E w a).2) := by
    have := Whole_grow hg _ h
    unfold slotsOf at this ⊢
    rw [UpDB_node]
    exact this
  have hnew : ((UpDB E w a).2.load (UpDB E w a).1.1).isSome = true := by
    rw [hr]; simp [World.load, hd]
  unfold UpSlave
  generalize UpDB E w a = r at h1 hnew
  simp only []
  have hscan := scan_total r.2.heap (fun d => d.addr == a) (r.2.node.Slave.getD []) 0
    (Whole_iff r.2 _ h1)
  cases hsc : scan r.2.heap (fun d => d.addr == a) (r.2.node.Slave.getD []) 0 with
  | none => exact absurd hsc hscan
  | some m =>
    cases m with
    | none =>
      refine ⟨by simp, ?_⟩
      intro s hs
      have hs' : s ∈ slotsOf r.2 ++ [r.1.1] := hs
      rcases List.mem_append.mp hs' with hm | hm
      · exact h1 s hm
      · rw [List.mem_singleton.mp hm]; exact hnew
    | some kq =>
      refine ⟨by simp, ?_⟩
      intro s hs
      have hs' : s ∈ (slotsOf r.2).set kq.1 r.1.1 := hs
      rcases List.mem_or_eq_of_mem_set hs' with hm | hm
      · exact h1 s hm
      · rw [hm]; exact hnew

theorem Whole_same {w w' : World} (hg : Grow w w') (hs : w'.node.Slave = w.node.Slave)
    (h : Whole w (slotsOf w)) : Whole w' (slotsOf w') := by
  have := Whole_grow hg _ h
  unfold slotsOf at this ⊢
  rw [hs]
  exact this

theorem tail_grow (E : Env) (w : World) (p : Nat) :
    Grow w (if (w.setLastPing E p).stateOf p ≠ some E.ManualDown
      then (w.setLastPing E p).storeState p E.Up else w.setLastPing E p) ∧
    (if (w.setLastPing E p).stateOf p ≠ some E.ManualDown
      then (w.setLastPing E p).storeState p E.Up else w.setLastPing E p).node = w.node := by
  split_ifs
  · exact ⟨(Grow_setLastPing E w p).growTrans (Grow_storeState _ p E.Up),
      by rw [storeState_node, setLastPing_node]⟩
  · exact ⟨Grow_setLastPing E w p, setLastPing_node E w p⟩

theorem checkSlaveAt_total (E : Env) (hping : ∀ t q, E.ping t q = true)
    (hopen : ∀ t a, (E.openDB t a).isSome = true) (w : World) (s : Option Nat)
    (hs : (w.load s).isSome = true) (h : Whole w (slotsOf w)) :
    (checkSlaveAt E w s).1 = some () ∧
      Whole (checkSlaveAt E w s).2 (slotsOf (checkSlaveAt E w s).2) := by
  cases s with
  | none => simp [World.load] at hs
  | some p =>
    cases hp : w.heap[p]? with
    | none => simp [World.load, hp] at hs
    | some db =>
      rw [checkSlaveAt_some E w p db hp, if_pos (hping _ _)]
      have h1 : Whole w.step (slotsOf w.step) := h
      by_cases hd : db.state = E.Down
      · rw [if_pos hd]
        obtain ⟨u1, u2⟩ := UpSlave_total E hping hopen w.step db.addr h1
        cases hu : (UpSlave E w.step db.addr).1 with
        | none => exact absurd hu u1
        | some e =>
          obtain ⟨g, hn⟩ := tail_grow E (UpSlave E w.step db.addr).2 p
          exact ⟨rfl, Whole_same g (by rw [hn]) u2⟩
      · rw [if_neg hd]
        obtain ⟨g, hn⟩ := tail_grow E w.step p
        exact ⟨rfl, Whole_same g (by rw [hn]) h1⟩

theorem checkSlaves_total (E : Env) (hping : ∀ t q, E.ping t q = true)
    (hopen : ∀ t a, (E.openDB t a).isSome = true) (p : Nat) (A : String)
    (l : List (Option Nat)) (w : World) (hpin : Pinned E w p A) (hl : Whole w l)
    (h : Whole w (slotsOf w)) :
    (checkSlaves E l w).1 = some () ∧
      Whole (checkSlaves E l w).2 (slotsOf (checkSlaves E l w).2) := by
  induction l generalizing w with
  | nil => exact ⟨rfl, h⟩
  | cons s rest ih =>
    obtain ⟨t1, t2⟩ := checkSlaveAt_total E hping hopen w s (hl s (by simp)) h
    obtain ⟨k1, k2, _⟩ := checkSlaveAt_sticky E hping w s p A hpin
    unfold checkSlaves
    generalize checkSlaveAt E w s = b at t1 t2 k1 k2
    obtain ⟨o, w1⟩ := b
    simp only [] at t1
    subst t1
    exact ih w1 k1 (Whole_grow k2 _ (fun s' hs' => hl s' (by simp [hs']))) t2

theorem cycle_total (E : Env) (hping : ∀ t q, E.ping t q = true)
    (hopen : ∀ t a, (E.openDB t a).isSome = true) (p : Nat) (A : String) (w : World)
    (hpin : Pinned E w p A) (h : Whole w (slotsOf w)) :
    (cycle E w).1 = some () ∧ Whole (cycle E w).2 (slotsOf (cycle E w).2) := by
  obtain ⟨m1, m2, m3, _⟩ := checkMaster_sticky E hping w p A hpin
  have h1 : Whole (checkMaster E w) (slotsOf (checkMaster E w)) := Whole_same m2 m3 h
  unfold cycle CheckSlave
  cases hs : (checkMaster E w).node.Slave with
  | none => exact ⟨rfl, h1⟩
  | some slaves =>
    have e : slotsOf (checkMaster E w) = slaves := by unfold slotsOf; rw [hs]; rfl
    exact checkSlaves_total E hping hopen p A slaves _ m1 (e ▸ h1) h1

theorem cycles_total (E : Env) (hping : ∀ t q, E.ping t q = true)
    (hopen : ∀ t a, (E.openDB t a).isSome = true) (p : Nat) (A : String) (k : Nat)
    (w : World) (hpin : Pinned E w p A) (h : Whole w (slotsOf w)) :
    (cycles E k w).1 = some () := by
  induction k generalizing w with
  | zero => rfl
  | succ k ih =>
    obtain ⟨c1, c2⟩ := cycle_total E hping hopen p A w hpin h
    obtain ⟨s1, _⟩ := cycle_sticky E hping w p A hpin
    unfold cycles
    generalize cycle E w = r at c1 c2 s1
    obtain ⟨o, w1⟩ := r
    simp only [] at c1
    subst c1
    exact ih w1 s1 c2

theorem opens_envWith (opens : Bool) (ping : Nat → Nat → Bool) (t : Int) :
    OpensUnmarked (envWith opens ping t) := by
  intro n a st lp h
  cases opens with
  | false => simp [envWith] at h
  | true =>
    simp only [envWith, if_true, Option.some.injEq, Prod.mk.injEq] at h
    obtain ⟨h1, _⟩ := h
    subst h1
    exact ⟨fun e => absurd e (by decide : ¬ (0 : Int) = 1),
      fun e => absurd e (by decide : ¬ (0 : Int) = 2)⟩

theorem manualWorld_shape :
    manualWorld.heap = [⟨"10.0.0.1:3306", 2, 0⟩, ⟨"10.0.0.2:3306", 2, 0⟩, ⟨"10.0.0.3:3306", 1, 0⟩] ∧
    manualWorld.node.Master = some 0 ∧ manualWorld.node.Slave = some [some 1, some 2] ∧
    manualWorld.node.SlaveWeights = [1, 2] := by
  decide

/-- The state `dupWorld`, in which `UpSlave` puts a new pool in the slot of a manually downed
replica, is not one that `node.go` can reach: its `Down` replica is behind a replica with its
address. -/
theorem dupWorld_unreachable :
    (cycles (envWith true (fun _ _ => true) 0) 1 dupWorld).2.node.Slave
      = some [some 2, some 1] ∧
    ¬ Reachable (envWith true (fun _ _ => true) 0) dupWorld := by
  refine ⟨by decide, fun h => ?_⟩
  exact (Reachable_tidy _ h).first 0 1 0 1 ⟨"10.0.0.2:3306", 2, 0⟩ ⟨"10.0.0.2:3306", 1, 0⟩
    (by decide) rfl rfl rfl rfl (Or.inl rfl) rfl

/-! ## Theorems -/

/-- C1 (failing input).  A master and a replica in state `ManualDown`, last pinged at
time 0, with a no-contact timeout of 30 seconds: the health check at time 100 whose pings
fail stores `Down` over `ManualDown`, through `DownMaster` and through `DownSlave`. -/
theorem manualDown_overwritten_on_failed_ping :
    downedWorld.stateOf 0 = some (envWith true (fun _ _ => false) 100).ManualDown ∧
    downedWorld.stateOf 1 = some (envWith true (fun _ _ => false) 100).ManualDown ∧
    (checkMaster (envWith true (fun _ _ => false) 100) downedWorld).stateOf 0
      = some (envWith true (fun _ _ => false) 100).Down ∧
    (CheckSlave (envWith true (fun _ _ => false) 100) downedWorld).2.stateOf 1
      = some (envWith true (fun _ _ => false) 100).Down := by
  decide

/-- C2 (counterexample).  Timeout of one second, master `Up` and last pinged at time 0:
the health check at time 1 whose ping fails, exactly one second after the last success,
leaves the master `Up`; it is not `Down`.  And two replicas with the same address, `Up`,
last pinged at time 0, timeout of 30 seconds: after the `CheckSlave` at time 100 whose
pings fail, the second one is still `Up`, `DownSlave` having marked the first one twice. -/
theorem still_up_after_failed_ping :
    upWorld.node.DownAfterNoAlive = 1 * Second ∧
    upWorld.stateOf 0 = some (envWith true (fun _ _ => false) 1).Up ∧
    (checkMaster (envWith true (fun _ _ => false) 1) upWorld).stateOf 0
      = some (envWith true (fun _ _ => false) 1).Up ∧
    (checkMaster (envWith true (fun _ _ => false) 1) upWorld).stateOf 0
      ≠ some (envWith true (fun _ _ => false) 1).Down ∧
    twinWorld.stateOf 1 = some (envWith true (fun _ _ => false) 100).Up ∧
    (CheckSlave (envWith true (fun _ _ => false) 100) twinWorld).1 = some () ∧
    (CheckSlave (envWith true (fun _ _ => false) 100) twinWorld).2.stateOf 1
      = some (envWith true (fun _ _ => false) 100).Up := by
  decide

/-- C2 (amended).  A pool in state `Up`, a no-contact timeout of `T` whole seconds, `T > 0`,
and a health check in which the ping of the pool fails.  The elapsed time is the clock
reading taken after that failed ping minus the time of the last successful ping, computed
in `int64` (it is the plain difference whenever that difference is an `int64`).  The
master stays `Up` when the elapsed time is at most `T`, exactly `T` included, and becomes
`Down` when it is greater than `T`.  The same holds of a replica when no other replica
slot holds that pool or a pool with its address: it stays `Up` up to `T`, and beyond `T`
it is `Down` at the end of `CheckSlave`, given that the loop got past that replica. -/
theorem debounce_strict (E : Env) (w : World) (p : Nat) (db : DB) (T : Int)
    (hp : w.heap[p]? = some db) (hup : db.state = E.Up) (hT : 0 < T)
    (hcfg : w.node.DownAfterNoAlive = T * Second) :
    (w.node.Master = some p → E.ping w.tick p = false →
      (sub64 (E.now (w.tick + 1)) db.lastPing ≤ T →
        (checkMaster E w).stateOf p = some E.Up) ∧
      (T < sub64 (E.now (w.tick + 1)) db.lastPing →
        (checkMaster E w).stateOf p = some E.Down)) ∧
    (∀ pre post : List (Option Nat), w.node.Slave = some (pre ++ some p :: post) →
      (∀ s ∈ pre ++ post, s ≠ some p ∧ Other w p db.addr s) →
      E.ping (checkSlaves E pre w).2.tick p = false →
      (sub64 (E.now ((checkSlaves E pre w).2.tick + 1)) db.lastPing ≤ T →
        (CheckSlave E w).2.stateOf p = some E.Up) ∧
      (T < sub64 (E.now ((checkSlaves E pre w).2.tick + 1)) db.lastPing →
        (checkSlaves E (pre ++ [some p]) w).1 = some () →
        (CheckSlave E w).2.stateOf p = some E.Down)) ∧
    (∀ now : Int, -(2 ^ 63) ≤ now - db.lastPing → now - db.lastPing < 2 ^ 63 →
      sub64 now db.lastPing = now - db.lastPing) := by
  refine ⟨fun hm hping => ?_, fun pre post hs ho hping => ?_,
    fun now h1 h2 => sub64_eq_sub now db.lastPing h1 h2⟩
  · rw [checkMaster_failed E w p db T hm hp hT hcfg hping]
    refine ⟨fun he => ?_, fun hl => ?_⟩
    · rw [if_neg (not_lt.mpr he)]
      simp [World.stateOf, hp, hup]
    · rw [if_pos hl]
      simp [World.stateOf, storeState_heap, hp]
  · have e : CheckSlave E w = checkSlaves E (pre ++ some p :: post) w := by
      unfold CheckSlave; rw [hs]
    rw [e]
    obtain ⟨h1, h2⟩ := checkSlaves_debounce E p pre post w db T hT hp hs hcfg ho hping
    refine ⟨fun he => ?_, fun hl hdone => ?_⟩
    · simp [World.stateOf, h1 he, hup]
    · simp [World.stateOf, h2 hl hdone]

/-- C2 (witness): timeout of 30 seconds, last success at time 0, a failed ping with the clock
at 30 and at 31, for the master and for the second of two replicas. -/
theorem debounce_strict_witness :
    (checkMaster (envWith true (fun _ _ => false) 30) pairWorld).stateOf 0
      = some (envWith true (fun _ _ => false) 30).Up ∧
    (checkMaster (envWith true (fun _ _ => false) 31) pairWorld).stateOf 0
      = some (envWith true (fun _ _ => false) 31).Down ∧
    (CheckSlave (envWith true (fun _ _ => false) 30) trioWorld).2.stateOf 2
      = some (envWith true (fun _ _ => false) 30).Up ∧
    (CheckSlave (envWith true (fun _ _ => false) 31) trioWorld).2.stateOf 2
      = some (envWith true (fun _ _ => false) 31).Down ∧
    sub64 31 0 = 31 - 0 :=
  ⟨((debounce_strict (envWith true (fun _ _ => false) 30) pairWorld 0 ⟨"10.0.0.1:3306", 0, 0⟩ 30
      rfl rfl (by decide) (by decide)).1 rfl rfl).1 (by decide),
   ((debounce_strict (envWith true (fun _ _ => false) 31) pairWorld 0 ⟨"10.0.0.1:3306", 0, 0⟩ 30
      rfl rfl (by decide) (by decide)).1 rfl rfl).2 (by decide),
   ((debounce_strict (envWith true (fun _ _ => false) 30) trioWorld 2 ⟨"10.0.0.3:3306", 0, 0⟩ 30
      rfl rfl (by decide) (by decide)).2.1 [some 1] [] rfl (by unfold Other; decide) rfl).1
      (by decide),
   ((debounce_strict (envWith true (fun _ _ => false) 31) trioWorld 2 ⟨"10.0.0.3:3306", 0, 0⟩ 30
      rfl rfl (by decide) (by decide)).2.1 [some 1] [] rfl (by unfold Other; decide) rfl).2
      (by decide) (by decide),
   (debounce_strict (envWith true (fun _ _ => false) 31) pairWorld 0 ⟨"10.0.0.1:3306", 0, 0⟩ 30
      rfl rfl (by decide) (by decide)).2.2 31 (by decide) (by decide)⟩

/-- C3 (counterexample).  On a payload without the fields after the capability-low word,
`readInitialHandshake` succeeds on a fresh connection and leaves a salt of 8 bytes, the
first fragment alone, not 20. -/
theorem salt_of_short_handshake :
    (readInitialHandshake freshConn (some shortHandshake)).map (fun r => (r.1, r.2.salt))
      = some (none, [11, 12, 13, 14, 15, 16, 17, 18]) ∧
    ((readInitialHandshake freshConn (some shortHandshake)).map
      (fun r => r.2.salt.length)) ≠ some 20 := by
  decide

/-- C3 (amended).  A handshake payload laid out as in the wire protocol, read into a
connection whose salt is empty: `readInitialHandshake` succeeds; when the payload carries
the fields after the capability-low word the salt is the 8-byte fragment followed by the
12-byte fragment, and when it ends after the capability-low word the salt is the 8-byte
fragment. -/
theorem salt_of_handshake (c : Conn) (v : Nat) (ver connId s1 : List Nat) (filler : Nat)
    (capLo : List Nat) (charset : Nat) (status capHi reserved s2 rest : List Nat)
    (hfresh : c.salt = [])
    (hv1 : v ≠ ERR_HEADER) (hv2 : MinProtocolVersion ≤ v) (hver : 0 ∉ ver)
    (hid : connId.length = 4) (hs1 : s1.length = 8) (hlo : capLo.length = 2)
    (hst : status.length = 2) (hhi : capHi.length = 2) (hres : reserved.length = 11)
    (hs2 : s2.length = 12) :
    (readInitialHandshake c (some (handshakePacket v ver connId s1 filler capLo
        (extendedFields charset status capHi reserved s2 rest)))).map (fun r => (r.1, r.2.salt))
      = some (none, s1 ++ s2) ∧
    (readInitialHandshake c (some (handshakePacket v ver connId s1 filler capLo []))).map
        (fun r => (r.1, r.2.salt)) = some (none, s1) := by
  have hidx : ∀ ext, IndexByte ((handshakePacket v ver connId s1 filler capLo ext).drop 1) 0
      = (ver.length : Int) := by
    intro ext
    simp [handshakePacket, IndexByte, indexByte?_append 0 ver _ hver]
  have hpos : ∀ ext, (1 + IndexByte ((handshakePacket v ver connId s1 filler capLo ext).drop 1) 0
      + 1 + 4).toNat = ver.length + 6 := by
    intro ext; rw [hidx]; omega
  have hlen : ∀ ext, (handshakePacket v ver connId s1 filler capLo ext).length
      = ver.length + 17 + ext.length := by
    intro ext; simp [handshakePacket, hid, hs1, hlo]; omega
  have h1 : ∀ ext, slice (handshakePacket v ver connId s1 filler capLo ext) (ver.length + 6)
      (ver.length + 6 + 8) = some s1 := by
    intro ext
    exact slice_eq _ (v :: (ver ++ 0 :: connId)) s1 (filler :: (capLo ++ ext)) _ _
      (by simp [handshakePacket]) (by simp [hid]) (by simp [hs1])
  have h2 : ∀ ext, slice (handshakePacket v ver connId s1 filler capLo ext)
      (ver.length + 6 + (8 + 1)) (ver.length + 6 + (8 + 1) + 2) = some capLo := by
    intro ext
    exact slice_eq _ (v :: (ver ++ 0 :: (connId ++ (s1 ++ [filler])))) capLo ext _ _
      (by simp [handshakePacket]) (by simp [hid, hs1]) (by simp [hlo])
  have hv1' : ¬ v = ERR_HEADER := hv1
  have hv2' : ¬ v < MinProtocolVersion := by omega
  constructor
  · have h3 : slice (handshakePacket v ver connId s1 filler capLo
        (extendedFields charset status capHi reserved s2 rest))
        (ver.length + 6 + (8 + 1) + 2 + 1) (ver.length + 6 + (8 + 1) + 2 + 1 + 2) = some status := by
      exact slice_eq _ (v :: (ver ++ 0 :: (connId ++ (s1 ++ filler :: (capLo ++ [charset])))))
        status (capHi ++ (reserved ++ (s2 ++ rest))) _ _
        (by simp [handshakePacket, extendedFields]) (by simp [hid, hs1, hlo]) (by simp [hst])
    have h4 : slice (handshakePacket v ver connId s1 filler capLo
        (extendedFields charset status capHi reserved s2 rest))
        (ver.length + 6 + (8 + 1) + 2 + 1 + 2) (ver.length + 6 + (8 + 1) + 2 + 1 + 2 + 2)
        = some capHi := by
      exact slice_eq _
        (v :: (ver ++ 0 :: (connId ++ (s1 ++ filler :: (capLo ++ charset :: status)))))
        capHi (reserved ++ (s2 ++ rest)) _ _
        (by simp [handshakePacket, extendedFields]) (by simp [hid, hs1, hlo, hst])
        (by simp [hhi])
    have h5 : slice (handshakePacket v ver connId s1 filler capLo
        (extendedFields charset status capHi reserved s2 rest))
        (ver.length + 6 + (8 + 1) + 2 + 1 + 2 + 2 + (10 + 1))
        (ver.length + 6 + (8 + 1) + 2 + 1 + 2 + 2 + (10 + 1) + 12) = some s2 := by
      exact slice_eq _
        (v :: (ver ++ 0 :: (connId ++ (s1 ++ filler :: (capLo ++ charset :: (status ++
          (capHi ++ reserved)))))))
        s2 rest _ _
        (by simp [handshakePacket, extendedFields]) (by simp [hid, hs1, hlo, hst, hhi, hres])
        (by simp [hs2])
    have hgt : (handshakePacket v ver connId s1 filler capLo
        (extendedFields charset status capHi reserved s2 rest)).length
        > ver.length + 6 + (8 + 1) + 2 := by
      rw [hlen]; simp [extendedFields]
    unfold readInitialHandshake
    simp only [hpos, h1, h2, h3, h4, h5, hgt, if_true]
    simp [handshakePacket, hv1', hv2', hfresh]
  · have hle : ¬ (handshakePacket v ver connId s1 filler capLo []).length
        > ver.length + 6 + (8 + 1) + 2 := by
      rw [hlen]; simp
    unfold readInitialHandshake
    simp only [hpos, h1, h2, hle, if_false]
    simp [handshakePacket, hv1', hv2', hfresh]

/-- C3 (witness): a protocol-10 payload with version "5.1" and both salt fragments. -/
theorem salt_of_handshake_witness :
    (readInitialHandshake freshConn (some (handshakePacket 10 [53, 46, 49] [1, 0, 0, 0]
        [11, 12, 13, 14, 15, 16, 17, 18] 0 [0xff, 0xf7]
        (extendedFields 33 [2, 0] [0xff, 0x81] [21, 0, 0, 0, 0, 0, 0, 0, 0, 0, 0]
          [21, 22, 23, 24, 25, 26, 27, 28, 29, 30, 31, 32] [0])))).map
        (fun r => (r.1, r.2.salt))
      = some (none, [11, 12, 13, 14, 15, 16, 17, 18] ++
          [21, 22, 23, 24, 25, 26, 27, 28, 29, 30, 31, 32]) ∧
    (readInitialHandshake freshConn (some (handshakePacket 10 [53, 46, 49] [1, 0, 0, 0]
        [11, 12, 13, 14, 15, 16, 17, 18] 0 [0xff, 0xf7] []))).map
        (fun r => (r.1, r.2.salt)) = some (none, [11, 12, 13, 14, 15, 16, 17, 18]) :=
  salt_of_handshake freshConn 10 [53, 46, 49] [1, 0, 0, 0] [11, 12, 13, 14, 15, 16, 17, 18] 0
    [0xff, 0xf7] 33 [2, 0] [0xff, 0x81] [21, 0, 0, 0, 0, 0, 0, 0, 0, 0, 0]
    [21, 22, 23, 24, 25, 26, 27, 28, 29, 30, 31, 32] [0]
    rfl (by decide) (by decide) (by decide) rfl rfl rfl rfl rfl rfl rfl

/-- C4 (counterexample).  With a database name and a server that does not advertise
`CLIENT_CONNECT_WITH_DB`, the capability written in bytes 4..7 and stored on the connection
has that bit set: it is not the AND of the desired mask and the advertised mask. -/
theorem connect_with_db_not_advertised :
    (writeAuthHandshake protocolCaps (fun _ _ => []) dbConn).2.capability = 41485 ∧
    leUint32 (writeAuthHandshake protocolCaps (fun _ _ => []) dbConn).1 4 = 41485 ∧
    (baseCapability protocolCaps ||| protocolCaps.CLIENT_CONNECT_WITH_DB) &&& dbConn.capability
      = 41477 ∧
    41485 &&& dbConn.capability ≠ 41485 := by
  decide

/-- C4 (amended).  The capability that `writeAuthHandshake` stores on the connection and
writes little-endian in bytes 4..7 of the packet is the AND of the five base flags with the
server-advertised mask, to which `CLIENT_CONNECT_WITH_DB` is added when a database name is
given, advertised or not; every other bit sent was advertised by the server. -/
theorem auth_capability (K : Caps) (hash : List Nat → List Nat → List Nat) (c : Conn) :
    (writeAuthHandshake K hash c).2.capability =
        (if c.db.length > 0 then (baseCapability K &&& c.capability ||| K.CLIENT_CONNECT_WITH_DB) % 2 ^ 32
         else baseCapability K &&& c.capability) ∧
    leUint32 (writeAuthHandshake K hash c).1 4 = (writeAuthHandshake K hash c).2.capability ∧
    (∀ i, (writeAuthHandshake K hash c).2.capability.testBit i = true →
      c.capability.testBit i = true ∨
        (c.db.length > 0 ∧ K.CLIENT_CONNECT_WITH_DB.testBit i = true)) := by
  refine ⟨rfl, ?_, ?_⟩
  · obtain ⟨h4, h5, h6, h7⟩ := auth_bytes K hash c
    unfold leUint32
    simp only [List.getD_eq_getElem?_getD, h4, h5, h6, h7, Option.getD_some]
    exact le_bytes _ (cap_lt K hash c)
  · intro i hi
    have e : (writeAuthHandshake K hash c).2.capability =
        (if c.db.length > 0 then (baseCapability K &&& c.capability ||| K.CLIENT_CONNECT_WITH_DB) % 2 ^ 32
         else baseCapability K &&& c.capability) := rfl
    rw [e] at hi
    split_ifs at hi with hdb
    · rw [Nat.testBit_mod_two_pow] at hi
      simp only [Bool.and_eq_true, Nat.testBit_or, Nat.testBit_and, Bool.or_eq_true, decide_eq_true_eq] at hi
      rcases hi.2 with h | h
      · exact Or.inl h.2
      · exact Or.inr ⟨hdb, h⟩
    · simp only [Nat.testBit_and, Bool.and_eq_true] at hi
      exact Or.inl hi.2

/-- C5 (counterexample).  The replica list holds a pool whose address is the empty
string: `AddSlave("")` returns `ErrAddressNull`, not `ErrSlaveExist`.  And with a nil slot
before the pool `10.0.0.2:3306`, `AddSlave("10.0.0.2:3306")` panics in its duplicate loop. -/
theorem addSlave_empty_address :
    emptyAddrWorld.load (some 0) = some ⟨"", 0, 0⟩ ∧
    AddSlave (envWith true (fun _ _ => true) 0) emptyAddrWorld ""
      = (some (some Err.ErrAddressNull), emptyAddrWorld) ∧
    (AddSlave (envWith true (fun _ _ => true) 0) emptyAddrWorld "").1
      ≠ some (some Err.ErrSlaveExist) ∧
    nilSlotWorld.load (some 0) = some ⟨"10.0.0.2:3306", 0, 0⟩ ∧
    (AddSlave (envWith true (fun _ _ => true) 0) nilSlotWorld "10.0.0.2:3306").1 = none := by
  decide

/-- C5 (amended).  Every replica slot holds a pool and one of them has address `A`:
`AddSlave` called with a non-empty `A`, or with `A@w` for any `w`, returns `ErrSlaveExist`
and changes nothing (replica list, weights, round-robin structure, pools). -/
theorem addSlave_exists (E : Env) (w : World) (slaves : List (Option Nat)) (p : Nat) (d : DB)
    (addr : String)
    (hs : w.node.Slave = some slaves)
    (hall : ∀ s ∈ slaves, (w.load s).isSome = true)
    (hp : some p ∈ slaves) (hd : w.heap[p]? = some d)
    (hne : addr ≠ "")
    (hcall : addr = d.addr ∨ ∃ wt, addr = d.addr ++ "@" ++ wt) :
    AddSlave E w addr = (some (some Err.ErrSlaveExist), w) := by
  have hlen : ¬ addr.length = 0 := by
    intro h
    apply hne
    have : addr.data = [] := List.length_eq_zero.mp h
    cases addr; simp_all
  have hkey : (Split d.addr WeightSplit).headD "" = (Split addr WeightSplit).headD "" := by
    rcases hcall with e | ⟨wt, e⟩
    · rw [e]
    · rw [e, Split_head_suffix]
  obtain ⟨r, hr⟩ := scan_found w
    (fun v => (Split v.addr WeightSplit).headD "" == (Split addr WeightSplit).headD "")
    slaves hall ⟨p, d, hp, hd, by simpa using hkey⟩ 0
  unfold AddSlave
  rw [if_neg hlen, hs]
  simp only [Option.getD_some, hr]

/-- C5 (witness): the replica `10.0.0.2:3306` of weight 3, added again with weight 5. -/
theorem addSlave_exists_witness :
    AddSlave (envWith true (fun _ _ => true) 0) pairWorld "10.0.0.2:3306@5"
      = (some (some Err.ErrSlaveExist), pairWorld) :=
  addSlave_exists (envWith true (fun _ _ => true) 0) pairWorld [some 1] 1
    ⟨"10.0.0.2:3306", 0, 0⟩ "10.0.0.2:3306@5" rfl (by decide) (by decide) rfl (by decide)
    (Or.inr ⟨"5", by decide⟩)

/-- C6 (failing input).  From replica and weight lists of equal length: `UpSlave` of an
address no replica has appends a pool and no weight; `AddSlave` whose `Open` fails appends
a weight and no pool. -/
theorem slave_lists_misaligned :
    (pairWorld.node.Slave.getD []).length = pairWorld.node.SlaveWeights.length ∧
    ((UpSlave (envWith true (fun _ _ => true) 0) pairWorld "10.0.0.9:3306").2.node.Slave.getD
        []).length = 2 ∧
    (UpSlave (envWith true (fun _ _ => true) 0) pairWorld
        "10.0.0.9:3306").2.node.SlaveWeights.length = 1 ∧
    (AddSlave (envWith false (fun _ _ => true) 0) pairWorld "10.0.0.9:3306").1
      = some (some Err.openFailed) ∧
    ((AddSlave (envWith false (fun _ _ => true) 0) pairWorld "10.0.0.9:3306").2.node.Slave.getD
        []).length = 1 ∧
    (AddSlave (envWith false (fun _ _ => true) 0) pairWorld
        "10.0.0.9:3306").2.node.SlaveWeights.length = 2 := by
  decide

/-- C7 (counterexample).  `AddSlave("10.0.0.9:3306@-3")` returns no error and appends the
weight -3; `AddSlave("10.0.0.9:3306@2@5")` returns no error and appends the weight 1. -/
theorem addSlave_negative_weight :
    AddSlave (envWith true (fun _ _ => true) 0) pairWorld "10.0.0.9:3306@-3"
      = (some none,
          InitBalancer (envWith true (fun _ _ => true) 0)
            { heap := pairWorld.heap ++ [⟨"10.0.0.9:3306", 0, 0⟩]
              node := { pairWorld.node with Slave := some [some 1, some 2],
                                            SlaveWeights := [3, -3] }
              tick := 1 }) ∧
    (AddSlave (envWith true (fun _ _ => true) 0) pairWorld "10.0.0.9:3306@2@5").1 = some none ∧
    (AddSlave (envWith true (fun _ _ => true) 0) pairWorld
        "10.0.0.9:3306@2@5").2.node.SlaveWeights = [3, 1] := by
  decide

/-- C7 (amended).  For a non-empty address that no replica has, every replica slot holding
a pool: when the address does not contain exactly one `@` the appended weight is 1; when it
contains exactly one `@` and `strconv.Atoi` accepts what follows it (an optionally signed
decimal integer), that value, negative or not, is the appended weight; when `Atoi` rejects
it, `AddSlave` returns the parse error and changes nothing. -/
theorem addSlave_weight (E : Env) (w : World) (addr : String) (hne : addr ≠ "")
    (hall : ∀ s ∈ w.node.Slave.getD [], (w.load s).isSome = true)
    (hnew : ∀ s ∈ w.node.Slave.getD [],
      (w.load s).map (fun d => (Split d.addr WeightSplit).headD "")
        ≠ some ((Split addr WeightSplit).headD "")) :
    (addr.data.count WeightSplit ≠ 1 →
      (AddSlave E w addr).2.node.SlaveWeights = w.node.SlaveWeights ++ [1]) ∧
    (∀ v, addr.data.count WeightSplit = 1 →
      Atoi ((Split addr WeightSplit).getD 1 "") = some v →
      (AddSlave E w addr).2.node.SlaveWeights = w.node.SlaveWeights ++ [v]) ∧
    (addr.data.count WeightSplit = 1 →
      Atoi ((Split addr WeightSplit).getD 1 "") = none →
      AddSlave E w addr = (some (some Err.atoi), w)) := by
  have hscan := scan_none w
    (fun v => (Split v.addr WeightSplit).headD "" == (Split addr WeightSplit).headD "")
    (w.node.Slave.getD []) hall
    (fun s hs => by
      have h := hnew s hs
      cases hl : w.load s with
      | none => simp
      | some d => simpa [hl] using h) 0
  have hlen := string_length_ne_zero addr hne
  have key : ∀ v, weightOf (Split addr WeightSplit) = some v →
      (AddSlave E w addr).2.node.SlaveWeights = w.node.SlaveWeights ++ [v] := by
    intro v hv
    have h := appendSlave_weights E w (Split addr WeightSplit) v hv
    unfold AddSlave
    rw [if_neg hlen, hscan]
    simp only []
    cases e : appendSlave E w (Split addr WeightSplit) with
    | mk r w1 =>
      rw [e] at h
      cases r with
      | none => simpa [InitBalancer] using h
      | some err => simpa using h
  refine ⟨?_, ?_, ?_⟩
  · intro hc
    apply key
    unfold weightOf
    rw [if_neg (by rw [Split_length]; omega)]
  · intro v hc hv
    apply key
    unfold weightOf
    rw [if_pos (by rw [Split_length]; omega), hv]
  · intro hc hv
    have hw : weightOf (Split addr WeightSplit) = none := by
      unfold weightOf
      rw [if_pos (by rw [Split_length]; omega), hv]
    unfold AddSlave
    rw [if_neg hlen, hscan]
    simp only [appendSlave, hw]

/-- C7 (witness): `10.0.0.9:3306`, alone, with weight 7 and with weight `x`. -/
theorem addSlave_weight_witness :
    (AddSlave (envWith true (fun _ _ => true) 0) pairWorld "10.0.0.9:3306").2.node.SlaveWeights
      = [3] ++ [1] ∧
    (AddSlave (envWith true (fun _ _ => true) 0) pairWorld
      "10.0.0.9:3306@7").2.node.SlaveWeights = [3] ++ [7] ∧
    AddSlave (envWith true (fun _ _ => true) 0) pairWorld "10.0.0.9:3306@x"
      = (some (some Err.atoi), pairWorld) :=
  ⟨(addSlave_weight (envWith true (fun _ _ => true) 0) pairWorld "10.0.0.9:3306" (by decide)
      (by decide) (by decide)).1 (by decide),
   (addSlave_weight (envWith true (fun _ _ => true) 0) pairWorld "10.0.0.9:3306@7" (by decide)
      (by decide) (by decide)).2.1 7 (by decide) (by decide),
   (addSlave_weight (envWith true (fun _ _ => true) 0) pairWorld "10.0.0.9:3306@x" (by decide)
      (by decide) (by decide)).2.2 (by decide) (by decide)⟩

/-- C8 (failing input).  `DownSlave` with an address that no replica of a non-nil replica
list has returns nil, not a not-found error; no state changes. -/
theorem downSlave_unknown_address :
    DownSlave pairWorld "10.0.0.9:3306" 1 = (some none, pairWorld) ∧
    DownSlave { pairWorld with node := { pairWorld.node with Slave := some [] } }
        "10.0.0.9:3306" 1
      = (some none, { pairWorld with node := { pairWorld.node with Slave := some [] } }) ∧
    DownMaster pairWorld "10.0.0.9:3306" 1 = (some Err.ErrNoMasterDB, pairWorld) := by
  decide

/-- C9 (failing input).  `Open` succeeds and the ping fails: `UpMaster` returns the ping
error and leaves `Master` nil; `UpSlave` of the address of replica slot 0 returns nil and
leaves a nil pointer in slot 0.  The pool that was marked `Down` is in no slot. -/
theorem up_with_failed_ping_installs_nil :
    UpMaster (envWith true (fun _ _ => false) 0) pairWorld "10.0.0.1:3306"
      = (some Err.pingFailed,
          { heap := pairWorld.heap ++ [⟨"10.0.0.1:3306", 1, 0⟩]
            node := { pairWorld.node with Master := none }
            tick := 2 }) ∧
    UpSlave (envWith true (fun _ _ => false) 0) pairWorld "10.0.0.2:3306"
      = (some none,
          { heap := pairWorld.heap ++ [⟨"10.0.0.2:3306", 1, 0⟩]
            node := { pairWorld.node with Slave := some [none] }
            tick := 2 }) := by
  decide

/-- C10.  In a state that `node.go` can reach (`Open` building pools that are neither `Down`
nor `ManualDown`), a pool in state `ManualDown`, and `k` consecutive health-check cycles in
which every ping succeeds: the pool is still in state `ManualDown`; if it was the master it
still is the master; if it was in replica slot `i` it still is in slot `i`.  The `k` cycles
run to their end when no replica slot is nil and every `Open` succeeds; otherwise the
state after them is the one at the panic that ended them. -/
theorem manualDown_sticky (E : Env) (hping : ∀ t q, E.ping t q = true) (w : World)
    (hr : Reachable E w) (p : Nat) (d : DB) (hp : w.heap[p]? = some d)
    (hmd : d.state = E.ManualDown) (k : Nat) :
    (cycles E k w).2.stateOf p = some E.ManualDown ∧
    (w.node.Master = some p → (cycles E k w).2.node.Master = some p) ∧
    (∀ (slaves : List (Option Nat)) (i : Nat), w.node.Slave = some slaves →
      slaves[i]? = some (some p) →
      ∃ slaves', (cycles E k w).2.node.Slave = some slaves' ∧ slaves'[i]? = some (some p)) ∧
    ((∀ t a, (E.openDB t a).isSome = true) → (∀ s ∈ slotsOf w, s ≠ none) →
      (cycles E k w).1 = some ()) := by
  have ht := Reachable_tidy E hr
  have hpin : Pinned E w p d.addr := ⟨d, hp, hmd, rfl⟩
  obtain ⟨⟨d', hd', hs', _⟩, c2, c3⟩ := cycles_sticky E hping k w p d.addr hpin
  refine ⟨by simp [World.stateOf, hd', hs'], c2, fun slaves i h1 h2 => ?_, fun hopen hnil => ?_⟩
  · obtain ⟨ss, e1, e2, _⟩ := c3 i ⟨slaves, h1, h2, Tidy_twinless E ht slaves i p d h1 h2 hp hmd⟩
    exact ⟨ss, e1, e2⟩
  · refine cycles_total E hping hopen p d.addr k w hpin ?_
    intro s hs
    cases s with
    | none => exact absurd rfl (hnil none hs)
    | some q =>
      have := ht.valid q hs
      simp [World.load, List.getElem?_eq_getElem this]

/-- C10 (witness): 100 cycles on a node set up by `ParseMaster` and `ParseSlave`, whose
master and first replica were manually downed and whose second replica is `Down`. -/
theorem manualDown_sticky_witness :
    (cycles (envWith true (fun _ _ => true) 0) 100 manualWorld).2.stateOf 0
      = some (envWith true (fun _ _ => true) 0).ManualDown ∧
    (cycles (envWith true (fun _ _ => true) 0) 100 manualWorld).2.node.Master = some 0 ∧
    (cycles (envWith true (fun _ _ => true) 0) 100 manualWorld).2.stateOf 1
      = some (envWith true (fun _ _ => true) 0).ManualDown ∧
    (∃ slaves, (cycles (envWith true (fun _ _ => true) 0) 100 manualWorld).2.node.Slave
        = some slaves ∧ slaves[0]? = some (some 1)) ∧
    (cycles (envWith true (fun _ _ => true) 0) 100 manualWorld).1 = some () :=
  have hr : Reachable (envWith true (fun _ _ => true) 0) manualWorld :=
    Reachable.downSlave _ _ _ (Reachable.downMaster _ _ _ (Reachable.downSlave _ _ _
      (Reachable.parseSlave _ ⟨rfl, rfl, rfl⟩ (opens_envWith _ _ _) _ _
        (Reachable.parseMaster (envWith true (fun _ _ => true) 0) _ _
          (Reachable.init startWorld rfl rfl)))))
  ⟨(manualDown_sticky (envWith true (fun _ _ => true) 0) (fun _ _ => rfl) manualWorld hr 0
      ⟨"10.0.0.1:3306", 2, 0⟩ (by decide) rfl 100).1,
   (manualDown_sticky (envWith true (fun _ _ => true) 0) (fun _ _ => rfl) manualWorld hr 0
      ⟨"10.0.0.1:3306", 2, 0⟩ (by decide) rfl 100).2.1 (by decide),
   (manualDown_sticky (envWith true (fun _ _ => true) 0) (fun _ _ => rfl) manualWorld hr 1
      ⟨"10.0.0.2:3306", 2, 0⟩ (by decide) rfl 100).1,
   (manualDown_sticky (envWith true (fun _ _ => true) 0) (fun _ _ => rfl) manualWorld hr 1
      ⟨"10.0.0.2:3306", 2, 0⟩ (by decide) rfl 100).2.2.1 [some 1, some 2] 0 (by decide) rfl,
   (manualDown_sticky (envWith true (fun _ _ => true) 0) (fun _ _ => rfl) manualWorld hr 1
      ⟨"10.0.0.2:3306", 2, 0⟩ (by decide) rfl 100).2.2.2 (fun _ _ => rfl) (by decide)⟩

/-- C11.  `GetMasterConn` returns `ErrNoMasterConn` when `Master` is nil; when the master's
state is `Down` it returns `ErrMasterDown` and makes no outside call (the world, call
counter included, is unchanged, and the result does not depend on `GetConn`); in every
other state, `Up` and `ManualDown` among them, it returns exactly what the master pool's
`GetConn` returns, after that one call. -/
theorem getMasterConn_cases (E : Env) (getConn : Nat → Nat → Option Nat × Option Err)
    (w : World) :
    (w.node.Master = none →
      GetMasterConn E getConn w = ((none, some Err.ErrNoMasterConn), w)) ∧
    (∀ (p : Nat) (db : DB), w.node.Master = some p → w.heap[p]? = some db →
      db.state = E.Down →
      ∀ other : Nat → Nat → Option Nat × Option Err,
        GetMasterConn E other w = ((none, some Err.ErrMasterDown), w)) ∧
    (∀ (p : Nat) (db : DB), w.node.Master = some p → w.heap[p]? = some db →
      db.state ≠ E.Down →
      GetMasterConn E getConn w = (getConn w.tick p, w.step)) ∧
    (∀ (p : Nat) (db : DB), w.node.Master = some p → w.heap[p]? = some db →
      (db.state = E.Up ∨ db.state = E.ManualDown) →
      GetMasterConn E getConn w = (getConn w.tick p, w.step)) := by
  have key : ∀ (p : Nat) (db : DB), w.node.Master = some p → w.heap[p]? = some db →
      db.state ≠ E.Down → GetMasterConn E getConn w = (getConn w.tick p, w.step) := by
    intro p db hm hp hs
    simp only [GetMasterConn, hm, hp, if_neg hs]
  refine ⟨fun hm => ?_, fun p db hm hp hs other => ?_, key, fun p db hm hp hs => ?_⟩
  · simp only [GetMasterConn, hm]
  · simp only [GetMasterConn, hm, hp, if_pos hs]
  · apply key p db hm hp
    rcases hs with h | h
    · rw [h]; exact E.up_ne_down
    · rw [h]; exact Ne.symm E.down_ne_manual

/-- C11 (witness): no master, a master that is `Down`, `Up`, and `ManualDown`. -/
theorem getMasterConn_cases_witness :
    GetMasterConn (envWith true (fun _ _ => true) 0) sevenConn dupWorld
      = ((none, some Err.ErrNoMasterConn), dupWorld) ∧
    GetMasterConn (envWith true (fun _ _ => true) 0) sevenConn downMasterWorld
      = ((none, some Err.ErrMasterDown), downMasterWorld) ∧
    GetMasterConn (envWith true (fun _ _ => true) 0) sevenConn pairWorld
      = (sevenConn pairWorld.tick 0, pairWorld.step) ∧
    GetMasterConn (envWith true (fun _ _ => true) 0) sevenConn downedWorld
      = (sevenConn downedWorld.tick 0, downedWorld.step) :=
  ⟨(getMasterConn_cases (envWith true (fun _ _ => true) 0) sevenConn dupWorld).1 rfl,
   (getMasterConn_cases (envWith true (fun _ _ => true) 0) sevenConn downMasterWorld).2.1 0
      ⟨"10.0.0.1:3306", 1, 0⟩ rfl rfl rfl sevenConn,
   (getMasterConn_cases (envWith true (fun _ _ => true) 0) sevenConn pairWorld).2.2.1 0
      ⟨"10.0.0.1:3306", 0, 0⟩ rfl rfl (by decide),
   (getMasterConn_cases (envWith true (fun _ _ => true) 0) sevenConn downedWorld).2.2.2 0
      ⟨"10.0.0.1:3306", 2, 0⟩ rfl rfl (Or.inr rfl)⟩

end Brother
